import Mathlib

/-!
# queueimpl8: a segmented FIFO queue

Shallow embedding of `src/queueimpl8/queueimpl8.go`.

The Go queue is a singly linked list of nodes, each holding a slice of values.
The queue keeps two pointers into that list (`head`, `tail`).  Pointers are
modelled explicitly: a heap is a list of nodes, an address is an index into
it, `newNode` allocates at the end, and a pointer is `Option Nat` (`none` is
Go's `nil`).  Field writes through a pointer are `List.set` on the heap.

Every operation that can stop with a run-time panic (nil dereference, index
out of range, slice bounds out of range, `make` capacity out of range) returns
an `Option`; `none` means that the call does not return normally.  The largest
capacity `make` accepts depends on the element type and the platform and is a
parameter, `maxCap`, of the model of `Dequeue`.  The Go loops
(in `Enqueue`, `Dequeue`, `NoOfNodes`) are structural recursions on a fuel
argument; the theorems show that the fuel passed by the top-level function is
always enough on states the program can reach.

The mutex only serialises calls; the model is the sequential behaviour.
`Print` only writes to standard output and is not modelled.  The capacity of a
slice does not influence the value computed by `append`, so a slice is a
`List`.  The Go `int` fields `hp`, `tp`, `lastSliceSize` are only ever assigned
sums of non-negative values or differences guarded by a comparison and are
`Nat`; `len` is decremented unguarded and is an `Int`.  Running out of memory
is outside the model.
-/

namespace queueimpl8

/-! ## Tunable sizes (package-level variables with their initial values) -/

/-- Size of the first slice (`firstSliceSize = 1`). -/
def firstSliceSize : Nat := 1

/-- Maximum size of the first slice (`maxFirstSliceSize = 16`). -/
def maxFirstSliceSize : Nat := 16

/-- Maximum size of each internal slice (`maxInternalSliceSize = 128`). -/
def maxInternalSliceSize : Nat := 128

/-! ## Data model -/

/-- A queue node: `v` holds the values, `n` points to the next node. -/
structure Node (T : Type) where
  v : List T
  n : Option Nat
deriving DecidableEq

/-- The queue record together with the heap its pointers refer to. -/
structure Queue (T : Type) where
  /-- All nodes ever allocated; the address of a node is its index. -/
  heap : List (Node T)
  head : Option Nat
  tail : Option Nat
  hp : Nat
  tp : Nat
  len : Int
  lastSliceSize : Nat
deriving DecidableEq

variable {T : Type}

/-- The function `newNode(capacity)`: a node with an empty slice and a nil link. -/
def newNode (_capacity : Nat) : Node T := { v := [], n := none }

/-- Dereference of a node pointer; `none` is the nil-pointer panic. -/
def load (heap : List (Node T)) (p : Option Nat) : Option (Node T) :=
  match p with
  | none => none
  | some a => heap[a]?

/-- The slice expression `v[s:e]`; `none` is the slice-bounds panic. -/
def slice (v : List T) (s e : Nat) : Option (List T) :=
  if s ≤ e ∧ e ≤ v.length then some ((v.take e).drop s) else none

/-- The method `Init`: clears the queue (the heap and `lastSliceSize` are left alone). -/
def Init (q : Queue T) : Queue T :=
  { q with head := none, tail := none, hp := 0, tp := 0, len := 0 }

/-- The function `NewQueue`: `new(Queue[T]).Init()`. -/
def NewQueue : Queue T :=
  Init { heap := [], head := none, tail := none, hp := 0, tp := 0, len := 0, lastSliceSize := 0 }

/-- The method `Length`. -/
def Length (q : Queue T) : Int := q.len

/-- The method `Front`.  Outer `none`: panic.  Inner `none`: the result
`(nil, false)`; inner `some x`: the result `(x, true)`. -/
def Front (q : Queue T) : Option (Option T) :=
  match q.head with
  | none => some none
  | some h =>
    match q.heap[h]? with
    | none => none
    | some headNode =>
      match headNode.v[q.hp]? with
      | none => none
      | some x => some (some x)

/-- The statement `q.tail.v = append(q.tail.v, xs...)`. -/
def appendTailV (q : Queue T) (xs : List T) : Option (Queue T) :=
  match q.tail with
  | none => none
  | some t =>
    match q.heap[t]? with
    | none => none
    | some tn => some { q with heap := q.heap.set t { tn with v := tn.v ++ xs } }

/-- The statements `n := newNode(maxInternalSliceSize); q.tail.n = n; q.tail = n;
q.lastSliceSize = maxInternalSliceSize`. -/
def linkNewTail (q : Queue T) : Option (Queue T) :=
  match q.tail with
  | none => none
  | some t =>
    match q.heap[t]? with
    | none => none
    | some tn =>
      let a := q.heap.length
      some { q with
        heap := (q.heap ++ [newNode maxInternalSliceSize]).set t { tn with n := some a },
        tail := some a,
        lastSliceSize := maxInternalSliceSize }

/-- The statements `h := newNode(firstSliceSize); q.head = h; q.tail = h;
q.lastSliceSize = maxFirstSliceSize`. -/
def newHead (q : Queue T) : Queue T :=
  let a := q.heap.length
  { q with
    heap := q.heap ++ [newNode firstSliceSize],
    head := some a,
    tail := some a,
    lastSliceSize := maxFirstSliceSize }

/-- The method `Push`. -/
def Push (q : Queue T) (v : T) : Option (Queue T) :=
  let q1 : Option (Queue T) :=
    match q.head with
    | none => some (newHead q)
    | some _ =>
      match load q.heap q.tail with
      | none => none
      | some tn =>
        if tn.v.length ≥ q.lastSliceSize then linkNewTail q else some q
  match q1 with
  | none => none
  | some q1 =>
    match appendTailV q1 [v] with
    | none => none
    | some q2 => some { q2 with len := q2.len + 1 }

/-- The method `appendToTail`: returns the new state and `length - vEndIndex`. -/
def appendToTail (q : Queue T) (v : List T) (vStartIndex vEndIndex length : Nat) :
    Option (Queue T × Nat) :=
  match slice v vStartIndex vEndIndex with
  | none => none
  | some xs =>
    match appendTailV q xs with
    | none => none
    | some q1 =>
      some ({ q1 with tp := q1.tp + (vEndIndex - vStartIndex) }, length - vEndIndex)

/-- The loop `for vRemainingItems > 0 { ... }` of `Enqueue`; the first argument
bounds the number of iterations. -/
def enqueueLoop (v : List T) (vCount : Nat) :
    Nat → Queue T → Nat → Nat → Option (Queue T)
  | 0, q, _, vRemainingItems => if vRemainingItems > 0 then none else some q
  | fuel + 1, q, vEndIndex, vRemainingItems =>
    if vRemainingItems > 0 then
      match linkNewTail { q with tp := 0 } with
      | none => none
      | some q1 =>
        let vStartIndex := vEndIndex
        let vEndIndex1 :=
          if vRemainingItems > maxInternalSliceSize then vEndIndex + maxInternalSliceSize
          else vEndIndex + vRemainingItems
        match appendToTail q1 v vStartIndex vEndIndex1 vCount with
        | none => none
        | some (q2, vRemainingItems1) => enqueueLoop v vCount fuel q2 vEndIndex1 vRemainingItems1
    else some q

/-- The first branch of `Enqueue`: allocates the head node when the chain is
empty and computes `vEndIndex`, the number of elements that go to the current
tail node. -/
def enqueueFirst (q : Queue T) (vCount : Nat) : Queue T × Nat :=
  let vRemainingItems := vCount
  match q.head with
  | none =>
    let q1 := newHead q
    if vCount > q1.lastSliceSize then (q1, q1.lastSliceSize) else (q1, vRemainingItems)
  | some _ =>
    if q.tp < q.lastSliceSize then
      let availableSpace := q.lastSliceSize - q.tp
      if vCount > availableSpace then (q, availableSpace) else (q, vRemainingItems)
    else (q, 0)

/-- The method `Enqueue` (bulk push). -/
def Enqueue (q : Queue T) (v : List T) : Option (Queue T) :=
  let vStartIndex := 0
  let vCount := v.length
  let vRemainingItems := vCount
  let first := enqueueFirst q vCount
  let vEndIndex := first.2
  let r : Option (Queue T × Nat) :=
    if vStartIndex ≠ vEndIndex then appendToTail first.1 v vStartIndex vEndIndex vCount
    else some (first.1, vRemainingItems)
  match r with
  | none => none
  | some (q2, vRemainingItems1) =>
    match enqueueLoop v vCount vCount q2 vEndIndex vRemainingItems1 with
    | none => none
    | some q3 => some { q3 with len := q3.len + (vCount : Int) }

/-- The loop `for count > 0 && q.head != nil { ... }` of `Dequeue`; the first
argument bounds the number of iterations. -/
def dequeueLoop : Nat → Queue T → Nat → List T → Option (List T × Queue T)
  | 0, q, count, items =>
    if count > 0 ∧ q.head ≠ none then none else some (items, q)
  | fuel + 1, q, count, items =>
    if count > 0 ∧ q.head ≠ none then
      match q.head with
      | none => none
      | some h =>
        match q.heap[h]? with
        | none => none
        | some headNode =>
          let maxSliceSize := headNode.v.length
          let availableSliceSize := maxSliceSize - q.hp
          let vStartIndex := q.hp
          if count < availableSliceSize then
            let vEndIndex := q.hp + count
            match slice headNode.v vStartIndex vEndIndex with
            | none => none
            | some xs =>
              some (items ++ xs, { q with hp := vEndIndex, len := q.len - (count : Int) })
          else
            let vEndIndex := q.hp + availableSliceSize
            match slice headNode.v vStartIndex vEndIndex with
            | none => none
            | some xs =>
              dequeueLoop fuel
                { q with
                  heap := q.heap.set h { headNode with n := none },
                  head := headNode.n,
                  hp := 0,
                  len := q.len - ((vEndIndex - vStartIndex : Nat) : Int) }
                (count - availableSliceSize) (items ++ xs)
    else some (items, q)

/-- The capacity check of `make([]T, 0, count)` (line 199).  The Go runtime
panics ("makeslice: cap out of range") when `count` is negative and when
`count` elements of the element type need more bytes than it can allocate.
`maxCap` is the largest capacity it accepts for the element type; the value
depends on the element size and on the platform and is a parameter. -/
def makeAccepts (maxCap : Nat) (count : Int) : Bool :=
  decide (0 ≤ count ∧ count ≤ (maxCap : Int))

/-- The largest capacity `make` accepts for elements of 8 bytes where the
runtime allocates at most 2^48 bytes (64-bit Linux): 2^48 / 8. -/
def maxCapInt64 : Nat := 2 ^ 45

/-- The method `Dequeue` (lines 190-234) on a runtime whose `make` accepts
capacities up to `maxCap`.  A nil result and an empty slice are both `[]`.
With a nil head the method returns before `make`; otherwise a `count` that
`make` rejects, negative or above `maxCap`, panics at line 199, before any
field is written. -/
def DequeueIn (maxCap : Nat) (q : Queue T) (count : Int) : Option (List T × Queue T) :=
  match q.head with
  | none => some ([], q)
  | some _ =>
    if makeAccepts maxCap count then dequeueLoop q.heap.length q count.toNat []
    else none

/-- The method `Dequeue` where the runtime accepts the requested capacity: the
limit of `make` is taken to be `count` itself, so that only a negative `count`
panics.  For every `maxCap` with `count ≤ maxCap` this is
`DequeueIn maxCap q count`. -/
def Dequeue (q : Queue T) (count : Int) : Option (List T × Queue T) :=
  DequeueIn count.toNat q count

/-- The method `Pop`.  In the result, `none` stands for `(zero value, false)`
and `some x` for `(x, true)`. -/
def Pop (q : Queue T) : Option (Option T × Queue T) :=
  match q.head with
  | none => some (none, q)
  | some h =>
    match q.heap[h]? with
    | none => none
    | some headNode =>
      match headNode.v[q.hp]? with
      | none => none
      | some x =>
        let q1 := { q with len := q.len - 1, hp := q.hp + 1 }
        if q1.hp ≥ headNode.v.length then
          some (some x,
            { q1 with heap := q1.heap.set h { headNode with n := none },
                      head := headNode.n, hp := 0 })
        else some (some x, q1)

/-- The loop of `NoOfNodes`, bounded by the first argument. -/
def countNodes (heap : List (Node T)) : Nat → Option Nat → Nat → Option Nat
  | _, none, count => some count
  | 0, some _, _ => none
  | fuel + 1, some a, count =>
    match heap[a]? with
    | none => none
    | some node => countNodes heap fuel node.n (count + 1)

/-- The method `NoOfNodes`. -/
def NoOfNodes (q : Queue T) : Option Nat :=
  countNodes q.heap q.heap.length q.head 0

/-! ## Observations used by the claims -/

/-- Follows the `n` links from a pointer and lists, for every node met, its
address and its slice; the first argument bounds the number of nodes. -/
def walk (heap : List (Node T)) : Nat → Option Nat → List (Nat × List T)
  | _, none => []
  | 0, some _ => []
  | fuel + 1, some a =>
    match heap[a]? with
    | none => []
    | some node => (a, node.v) :: walk heap fuel node.n

/-- The nodes reachable from `head`, in chain order. -/
def chain (q : Queue T) : List (Nat × List T) := walk q.heap q.heap.length q.head

/-- Live elements of a chain: the head slice from index `hp` on, then every
later slice. -/
def live (hp : Nat) : List (Nat × List T) → List T
  | [] => []
  | (_, w) :: rest => w.drop hp ++ (rest.map Prod.snd).flatten

/-- Live contents of the queue. -/
def contents (q : Queue T) : List T := live q.hp (chain q)

/-- The calls of the sequential interface. -/
inductive Op (T : Type) where
  | push (v : T)
  | enqueue (vs : List T)
  | pop
  | dequeue (k : Nat)
  | init

/-- State after one call; `none` when the call panics.  `Dequeue` is taken on a
runtime that accepts the requested capacity, so the states reached by `step`
include those reached on a runtime with any limit. -/
def step (q : Queue T) : Op T → Option (Queue T)
  | Op.push v => Push q v
  | Op.enqueue vs => Enqueue q vs
  | Op.pop => (Pop q).map Prod.snd
  | Op.dequeue k => (Dequeue q (k : Int)).map Prod.snd
  | Op.init => some (Init q)

/-- States reachable from `NewQueue` by calls that return. -/
inductive Reachable : Queue T → Prop where
  | new : Reachable NewQueue
  | step {q q1 : Queue T} (op : Op T) : Reachable q → step q op = some q1 → Reachable q1

/-! ## Representation predicate -/

/-- The chain starting at pointer `p` consists of exactly the listed
addresses, holding the listed slices, and ends with a nil link. -/
def Rep (heap : List (Node T)) : Option Nat → List (Nat × List T) → Prop
  | p, [] => p = none
  | p, (a, w) :: rest => p = some a ∧ ∃ nd, heap[a]? = some nd ∧ nd.v = w ∧ Rep heap nd.n rest

/-- Pointer structure of a queue whose chain is `segs`. -/
structure Linked (q : Queue T) (segs : List (Nat × List T)) : Prop where
  rep : Rep q.heap q.head segs
  nodup : (segs.map Prod.fst).Nodup
  tail : ∀ s, segs.getLast? = some s → q.tail = some s.1

/-- Cursor and slice conditions: `hp` is a valid index of the head slice
(or the head slice is empty and `hp` is 0), later slices are non-empty. -/
def segsOK (hp : Nat) : List (Nat × List T) → Prop
  | [] => hp = 0
  | (_, w) :: rest => (hp < w.length ∨ (w = [] ∧ hp = 0)) ∧ ∀ s ∈ rest, s.2 ≠ []

/-- The structural invariant of the queue. -/
def Shape (q : Queue T) (segs : List (Nat × List T)) : Prop :=
  Linked q segs ∧ segsOK q.hp segs

/-- The full invariant: structure and the length counter. -/
def Abs (q : Queue T) (segs : List (Nat × List T)) : Prop :=
  Shape q segs ∧ q.len = ((live q.hp segs).length : Int)

/-- State written by `linkNewTail` when the tail node is at `t` and holds `tv`. -/
def linkedState (q : Queue T) (t : Nat) (tv : List T) : Queue T :=
  { q with
    heap := (q.heap ++ [newNode maxInternalSliceSize]).set t { v := tv, n := some q.heap.length },
    tail := some q.heap.length,
    lastSliceSize := maxInternalSliceSize }

/-- The head node, if any, still holds an element that has not been removed. -/
def headLive (hp : Nat) : List (Nat × List T) → Prop
  | [] => True
  | (_, w) :: _ => hp < w.length

/-! ## Call sequences -/

/-- Calls `Push` on each value in order. -/
def pushAll (q : Queue T) : List T → Option (Queue T)
  | [] => some q
  | x :: xs =>
    match Push q x with
    | none => none
    | some q1 => pushAll q1 xs

/-- Calls `Pop` the given number of times and collects the results in call order. -/
def popN : Nat → Queue T → Option (List (Option T) × Queue T)
  | 0, q => some ([], q)
  | n + 1, q =>
    match Pop q with
    | none => none
    | some (r, q1) =>
      match popN n q1 with
      | none => none
      | some (rs, q2) => some (r :: rs, q2)

/-- Runs a sequence of calls; `none` when one of them panics. -/
def runOps (q : Queue T) : List (Op T) → Option (Queue T)
  | [] => some q
  | op :: ops =>
    match step q op with
    | none => none
    | some q1 => runOps q1 ops

/-- Whether the call is `Init`. -/
def Op.isInit : Op T → Bool
  | Op.init => true
  | _ => false

/-! ## Concrete states used as examples -/

/-- State after `Push(1)`, `Push(2)` on a new queue. -/
def twoPushed : Queue Nat :=
  { heap := [{ v := [1, 2], n := none }], head := some 0, tail := some 0,
    hp := 0, tp := 0, len := 2, lastSliceSize := 16 }

/-- State after `Enqueue` of the twenty values 0..19 on a new queue: two nodes. -/
def twentyQueued : Queue Nat :=
  { heap := [{ v := List.range 16, n := some 1 }, { v := [16, 17, 18, 19], n := none }],
    head := some 0, tail := some 1, hp := 0, tp := 4, len := 20, lastSliceSize := 128 }

/-- State after `Enqueue` of an empty slice on a new queue: a head node with an
empty slice. -/
def emptyHeadQueue : Queue Nat :=
  { heap := [{ v := [], n := none }], head := some 0, tail := some 0,
    hp := 0, tp := 0, len := 0, lastSliceSize := 16 }

/-- Calls that lead to a queue holding one element behind an empty head node. -/
def staleHeadOps : List (Op Nat) :=
  [Op.enqueue (List.range 16), Op.dequeue 16, Op.enqueue [], Op.enqueue [7]]

/-- State after `staleHeadOps` on a new queue. -/
def staleHeadQueue : Queue Nat :=
  { heap := [{ v := List.range 16, n := none }, { v := [], n := some 2 },
             { v := [7], n := none }],
    head := some 1, tail := some 2, hp := 0, tp := 1, len := 1, lastSliceSize := 128 }

/-! ## More concrete states -/

/-- State after `Push(1)`, `Pop()` on a new queue: the chain is drained. -/
def drainedQueue : Queue Nat :=
  { heap := [{ v := [1], n := none }], head := none, tail := some 0,
    hp := 0, tp := 0, len := 0, lastSliceSize := 16 }

/-- State after `Push(1)` on a new queue. -/
def onePushed : Queue Nat :=
  { heap := [{ v := [1], n := none }], head := some 0, tail := some 0,
    hp := 0, tp := 0, len := 1, lastSliceSize := 16 }

/-- Sixteen calls of `Push` followed by `Enqueue` of a one-element slice. -/
def overfillOps : List (Op Nat) :=
  (List.range 16).map Op.push ++ [Op.enqueue [16]]

/-- State after `overfillOps` on a new queue: one node holding seventeen elements. -/
def overfullQueue : Queue Nat :=
  { heap := [{ v := List.range 17, n := none }], head := some 0, tail := some 0,
    hp := 0, tp := 1, len := 17, lastSliceSize := 16 }

/-! ## The view of a queue state that decides the results of calls

The results of the calls depend on the slices along the chain, the cursors,
the length counter and, while the chain is non-empty, the ceiling; they do
not depend on addresses or on unlinked nodes.  The functions below give the
effect of each call on that view. -/

/-- The slices of the chain in order, `hp`, `tp`, `len` and `lastSliceSize`. -/
structure View (T : Type) where
  vals : List (List T)
  hp : Nat
  tp : Nat
  len : Int
  lss : Nat

/-- Appends `xs` to the last slice. -/
def appendLast (vals : List (List T)) (xs : List T) : List (List T) :=
  match vals.getLast? with
  | none => vals
  | some tv => vals.dropLast ++ [tv ++ xs]

/-- Cuts a list into consecutive pieces of `n` elements, the last piece
holding what is left; the first argument bounds the number of pieces. -/
def chunksAux (n : Nat) : Nat → List T → List (List T)
  | 0, _ => []
  | _ + 1, [] => []
  | fuel + 1, x :: l => (x :: l).take n :: chunksAux n fuel ((x :: l).drop n)

/-- Consecutive pieces of `n` elements of a list. -/
def chunks (n : Nat) (l : List T) : List (List T) := chunksAux n l.length l

/-- Effect of `Push` on the view. -/
def viewPush (a : View T) (x : T) : View T :=
  match a.vals.getLast? with
  | none => { a with vals := [[x]], len := a.len + 1, lss := maxFirstSliceSize }
  | some tv =>
    if tv.length ≥ a.lss then
      { a with vals := a.vals ++ [[x]], len := a.len + 1, lss := maxInternalSliceSize }
    else { a with vals := appendLast a.vals [x], len := a.len + 1 }

/-- Number of elements `Enqueue` gives to the current tail node. -/
def viewFirstEnd (a : View T) (n : Nat) : Nat :=
  match a.vals with
  | [] => if n > maxFirstSliceSize then maxFirstSliceSize else n
  | _ :: _ => if a.tp < a.lss then (if n > a.lss - a.tp then a.lss - a.tp else n) else 0

/-- Effect of `Enqueue` on the view. -/
def viewEnqueue (a : View T) (v : List T) : View T :=
  let vEnd := viewFirstEnd a v.length
  let vals1 : List (List T) := match a.vals with
    | [] => [[]]
    | _ :: _ => a.vals
  let lss1 := match a.vals with
    | [] => maxFirstSliceSize
    | _ :: _ => a.lss
  let extra := chunks maxInternalSliceSize (v.drop vEnd)
  { vals := appendLast vals1 (v.take vEnd) ++ extra,
    hp := a.hp,
    tp := match extra.getLast? with
      | none => a.tp + vEnd
      | some c => c.length,
    len := a.len + (v.length : Int),
    lss := match extra.getLast? with
      | none => lss1
      | some _ => maxInternalSliceSize }

/-- Result of `Pop` and its effect on the view; `none` is the panic. -/
def viewPop (a : View T) : Option (Option T × View T) :=
  match a.vals with
  | [] => some (none, a)
  | w :: rest =>
    match w[a.hp]? with
    | none => none
    | some x =>
      if a.hp + 1 ≥ w.length then
        some (some x, { a with vals := rest, hp := 0, len := a.len - 1 })
      else some (some x, { a with hp := a.hp + 1, len := a.len - 1 })

/-- Result of `Front` on the view; `none` is the panic. -/
def viewFront (a : View T) : Option (Option T) :=
  match a.vals with
  | [] => some none
  | w :: _ =>
    match w[a.hp]? with
    | none => none
    | some x => some (some x)

/-- The loop of `Dequeue` on the slices: the items removed, the slices left
and the new `hp`. -/
def viewDeq : List (List T) → Nat → Nat → List T × List (List T) × Nat
  | [], hp, _ => ([], [], hp)
  | w :: rest, hp, count =>
    if count = 0 then ([], w :: rest, hp)
    else if count < w.length - hp then ((w.drop hp).take count, w :: rest, hp + count)
    else
      let r := viewDeq rest 0 (count - (w.length - hp))
      (w.drop hp ++ r.1, r.2.1, r.2.2)

/-- Result of `Dequeue` and its effect on the view, on a runtime that accepts
the requested capacity as in `Dequeue`; `none` is the panic of a negative
count. -/
def viewDequeue (a : View T) (count : Int) : Option (List T × View T) :=
  match a.vals with
  | [] => some ([], a)
  | _ :: _ =>
    if count < 0 then none
    else
      let r := viewDeq a.vals a.hp count.toNat
      some (r.1, { a with vals := r.2.1, hp := r.2.2, len := a.len - (r.1.length : Int) })

/-- The queue state `q` has the view `a`.  The ceiling is only compared while
the chain is non-empty: the next call that allocates a head node overwrites it. -/
def Refines (q : Queue T) (a : View T) : Prop :=
  ∃ segs, Shape q segs ∧ segs.map Prod.snd = a.vals ∧ q.hp = a.hp ∧ q.tp = a.tp ∧
    q.len = a.len ∧ (a.vals ≠ [] → q.lastSliceSize = a.lss)

/-- The calls whose results a caller can observe. -/
inductive Call (T : Type) where
  | push (v : T)
  | enqueue (vs : List T)
  | pop
  | dequeue (count : Int)
  | front
  | length
  | noOfNodes

/-- What a call returns. -/
inductive Result (T : Type) where
  | done
  | popped (r : Option T)
  | dequeued (items : List T)
  | front (r : Option T)
  | length (n : Int)
  | nodes (n : Nat)

/-- One call: its result and the state after it; `none` when the call panics.
`Dequeue` is taken on a runtime that accepts the requested capacity. -/
def call (q : Queue T) : Call T → Option (Result T × Queue T)
  | Call.push v => (Push q v).map (fun q1 => (Result.done, q1))
  | Call.enqueue vs => (Enqueue q vs).map (fun q1 => (Result.done, q1))
  | Call.pop => (Pop q).map (fun r => (Result.popped r.1, r.2))
  | Call.dequeue count => (Dequeue q count).map (fun r => (Result.dequeued r.1, r.2))
  | Call.front => (Front q).map (fun r => (Result.front r, q))
  | Call.length => some (Result.length (Length q), q)
  | Call.noOfNodes => (NoOfNodes q).map (fun n => (Result.nodes n, q))

/-- The results of a sequence of calls, in call order; a panic ends the
sequence and is recorded as `none`. -/
def results : Queue T → List (Call T) → List (Option (Result T))
  | _, [] => []
  | q, c :: cs =>
    match call q c with
    | none => [none]
    | some (r, q1) => some r :: results q1 cs

/-- One call on the view. -/
def viewCall (a : View T) : Call T → Option (Result T × View T)
  | Call.push v => some (Result.done, viewPush a v)
  | Call.enqueue vs => some (Result.done, viewEnqueue a vs)
  | Call.pop => (viewPop a).map (fun r => (Result.popped r.1, r.2))
  | Call.dequeue count => (viewDequeue a count).map (fun r => (Result.dequeued r.1, r.2))
  | Call.front => (viewFront a).map (fun r => (Result.front r, a))
  | Call.length => some (Result.length a.len, a)
  | Call.noOfNodes => some (Result.nodes a.vals.length, a)

/-- The results of a sequence of calls, computed on the view. -/
def viewResults : View T → List (Call T) → List (Option (Result T))
  | _, [] => []
  | a, c :: cs =>
    match viewCall a c with
    | none => [none]
    | some (r, a1) => some r :: viewResults a1 cs

/-- The part of `Enqueue` after its first branch, as a function of the state
and of the `vEndIndex` computed there. -/
def enqueueRest (q1 : Queue T) (v : List T) (vEndIndex : Nat) : Option (Queue T) :=
  let r : Option (Queue T × Nat) :=
    if 0 ≠ vEndIndex then appendToTail q1 v 0 vEndIndex v.length
    else some (q1, v.length)
  match r with
  | none => none
  | some (q2, vRemainingItems1) =>
    match enqueueLoop v v.length v.length q2 vEndIndex vRemainingItems1 with
    | none => none
    | some q3 => some { q3 with len := q3.len + (v.length : Int) }

/-- The node sizes, head node first, that N calls of `Push` on a new queue
are to produce: one node of N elements up to N = 16; beyond that a first node
of 16, then nodes of 128, the last one holding what is left (1 to 128). -/
def pushNodeSizes (N : Nat) : List Nat :=
  if N ≤ 16 then [N]
  else 16 :: (List.replicate ((N - 17) / 128) 128 ++ [(N - 17) % 128 + 1])

/-- Layout of the slices after `m` calls of `Push` on a new queue, `m ≥ 1`:
either a single slice of `m ≤ 16` elements under the ceiling 16, or a first
slice of 16, then slices of 128, then a last slice of 1 to 128 elements, under
the ceiling 128. -/
def PushedLayout (vals : List (List T)) (lss m : Nat) : Prop :=
  (∃ w, vals = [w] ∧ w.length = m ∧ m ≤ 16 ∧ lss = 16) ∨
  (∃ w mid l, vals = (w :: mid) ++ [l] ∧ w.length = 16 ∧ (∀ c ∈ mid, c.length = 128) ∧
    1 ≤ l.length ∧ l.length ≤ 128 ∧ m = 16 + 128 * mid.length + l.length ∧ lss = 128)

/-- Live element counts of the nodes of a chain, head node first. -/
def liveCounts (hp : Nat) : List (List T) → List Nat
  | [] => []
  | w :: rest => (w.length - hp) :: rest.map List.length

/-- Number of leading nodes all of whose live elements are removed when `k`
elements are taken from nodes with the listed live counts: a node is counted
when `k` reaches its live count, and the count goes on with what is left. -/
def drainedNodes : List Nat → Nat → Nat
  | [], _ => 0
  | c :: cs, k => if k < c then 0 else 1 + drainedNodes cs (k - c)

/-! ## Calls that panic before they write -/

/-- Whether `Pop` panics at `v := q.head.v[q.hp]` (line 254): the head is not
nil and `hp` is not an index of the head slice.  No field has been written at
that line. -/
def popPanics (q : Queue T) : Bool :=
  match q.head with
  | none => false
  | some h =>
    match q.heap[h]? with
    | none => false
    | some headNode => decide (headNode.v.length ≤ q.hp)

/-- Whether `Dequeue(count)` panics in `make([]T, 0, count)` (line 199): the
head is not nil and `make` rejects the capacity.  No field has been written at
that line. -/
def makePanics (maxCap : Nat) (q : Queue T) (count : Int) : Bool :=
  q.head.isSome && !makeAccepts maxCap count

/-- Runs a sequence of calls on a runtime whose `make` accepts capacities up to
`maxCap`, and keeps two tallies: the number of elements handed to `Push` and
`Enqueue`, and the number of elements handed back by `Pop` (when it reports
found) and `Dequeue`.  A `Pop` that panics at line 254 and a `Dequeue` that
panics at line 199 have written no field and the deferred `Unlock` has
released the mutex, so the state after such a call is the state before it; the
call has returned nothing and adds nothing to the tallies.  The result is
`none` when a call fails to return in any other way. -/
def runRecovering (maxCap : Nat) :
    Queue T → Nat → Nat → List (Op T) → Option (Queue T × Nat × Nat)
  | q, added, removed, [] => some (q, added, removed)
  | q, added, removed, Op.push v :: ops =>
    match Push q v with
    | none => none
    | some q1 => runRecovering maxCap q1 (added + 1) removed ops
  | q, added, removed, Op.enqueue vs :: ops =>
    match Enqueue q vs with
    | none => none
    | some q1 => runRecovering maxCap q1 (added + vs.length) removed ops
  | q, added, removed, Op.pop :: ops =>
    if popPanics q then runRecovering maxCap q added removed ops
    else
      match Pop q with
      | none => none
      | some (none, q1) => runRecovering maxCap q1 added removed ops
      | some (some _, q1) => runRecovering maxCap q1 added (removed + 1) ops
  | q, added, removed, Op.dequeue k :: ops =>
    if makePanics maxCap q (k : Int) then runRecovering maxCap q added removed ops
    else
      match DequeueIn maxCap q (k : Int) with
      | none => none
      | some (items, q1) => runRecovering maxCap q1 added (removed + items.length) ops
  | q, added, removed, Op.init :: ops => runRecovering maxCap (Init q) added removed ops

/-- Nine calls: a `Pop` behind the empty head node of `Enqueue([])` and a
`Dequeue` beyond the limit of `make` panic, the other calls add four elements
and remove three. -/
def recoveringOps : List (Op Nat) :=
  [Op.enqueue [], Op.pop, Op.push 1, Op.dequeue 4611686018427387904, Op.dequeue 1,
    Op.enqueue [2, 3, 4], Op.pop, Op.dequeue 0, Op.pop]

/-- State after `recoveringOps` on a new queue. -/
def recoveringFinal : Queue Nat :=
  { heap := [{ v := [1], n := none }, { v := [2, 3, 4], n := none }], head := some 1,
    tail := some 1, hp := 2, tp := 3, len := 1, lastSliceSize := 16 }

/-! ## Lemmas on the representation predicate -/

theorem rep_lt {heap : List (Node T)} {segs : List (Nat × List T)} :
    ∀ {p : Option Nat}, Rep heap p segs → ∀ s ∈ segs, s.1 < heap.length := by
  induction segs with
  | nil => intro p _ s hs; cases hs
  | cons x rest ih =>
    obtain ⟨a, w⟩ := x
    intro p h s hs
    obtain ⟨_, nd, hnd, _, hrest⟩ := h
    rcases List.mem_cons.1 hs with rfl | hs
    · exact (List.getElem?_eq_some.1 hnd).1
    · exact ih hrest s hs

theorem rep_frame_set {heap : List (Node T)} {segs : List (Nat × List T)} (b : Nat)
    (nb : Node T) :
    ∀ {p : Option Nat}, Rep heap p segs → b ∉ segs.map Prod.fst → Rep (heap.set b nb) p segs := by
  induction segs with
  | nil => intro p h _; exact h
  | cons x rest ih =>
    obtain ⟨a, w⟩ := x
    intro p h hb
    obtain ⟨hp, nd, hnd, hv, hrest⟩ := h
    simp only [List.map_cons, List.mem_cons, not_or] at hb
    refine ⟨hp, nd, ?_, hv, ih hrest hb.2⟩
    rw [List.getElem?_set_ne hb.1]; exact hnd

theorem rep_frame_append {heap : List (Node T)} {segs : List (Nat × List T)}
    (more : List (Node T)) :
    ∀ {p : Option Nat}, Rep heap p segs → Rep (heap ++ more) p segs := by
  induction segs with
  | nil => intro p h; exact h
  | cons x rest ih =>
    obtain ⟨a, w⟩ := x
    intro p h
    obtain ⟨hp, nd, hnd, hv, hrest⟩ := h
    refine ⟨hp, nd, ?_, hv, ih hrest⟩
    rw [List.getElem?_append_left (List.getElem?_eq_some.1 hnd).1]; exact hnd

theorem rep_snoc_last {heap : List (Node T)} {init : List (Nat × List T)} {t : Nat}
    {tv : List T} :
    ∀ {p : Option Nat}, Rep heap p (init ++ [(t, tv)]) → heap[t]? = some { v := tv, n := none } := by
  induction init with
  | nil =>
    intro p h
    obtain ⟨_, nd, hnd, hv, hrest⟩ := h
    obtain ⟨v, n⟩ := nd
    simp only [Rep] at hrest
    simp only at hv
    subst hv; subst hrest; exact hnd
  | cons x rest ih =>
    obtain ⟨a, w⟩ := x
    intro p h
    obtain ⟨_, nd, _, _, hrest⟩ := h
    exact ih hrest

theorem rep_snoc_set {heap : List (Node T)} {init : List (Nat × List T)} {t : Nat}
    {tv : List T} (w : List T) :
    ∀ {p : Option Nat}, Rep heap p (init ++ [(t, tv)]) → t ∉ init.map Prod.fst →
      Rep (heap.set t { v := w, n := none }) p (init ++ [(t, w)]) := by
  induction init with
  | nil =>
    intro p h _
    obtain ⟨hp, nd, hnd, hv, hrest⟩ := h
    refine ⟨hp, { v := w, n := none }, ?_, rfl, ?_⟩
    · rw [List.getElem?_set_self (List.getElem?_eq_some.1 hnd).1]
    · simp [Rep]
  | cons x rest ih =>
    obtain ⟨a, u⟩ := x
    intro p h ht
    obtain ⟨hp, nd, hnd, hv, hrest⟩ := h
    simp only [List.map_cons, List.mem_cons, not_or] at ht
    refine ⟨hp, nd, ?_, hv, ih hrest ht.2⟩
    rw [List.getElem?_set_ne ht.1]; exact hnd

theorem rep_snoc_link {heap : List (Node T)} {init : List (Nat × List T)} {t : Nat}
    {tv : List T} (a : Nat) (w : List T) :
    ∀ {p : Option Nat}, Rep heap p (init ++ [(t, tv)]) → t ∉ init.map Prod.fst →
      a ≠ t → heap[a]? = some { v := w, n := none } →
      Rep (heap.set t { v := tv, n := some a }) p (init ++ [(t, tv), (a, w)]) := by
  induction init with
  | nil =>
    intro p h _ hat ha
    obtain ⟨hp, nd, hnd, hv, hrest⟩ := h
    refine ⟨hp, { v := tv, n := some a }, ?_, rfl, rfl, { v := w, n := none }, ?_, rfl, ?_⟩
    · rw [List.getElem?_set_self (List.getElem?_eq_some.1 hnd).1]
    · rw [List.getElem?_set_ne (Ne.symm hat)]; exact ha
    · simp [Rep]
  | cons x rest ih =>
    obtain ⟨b, u⟩ := x
    intro p h ht hat ha
    obtain ⟨hp, nd, hnd, hv, hrest⟩ := h
    simp only [List.map_cons, List.mem_cons, not_or] at ht
    refine ⟨hp, nd, ?_, hv, ih hrest ht.2 hat ha⟩
    rw [List.getElem?_set_ne ht.1]; exact hnd

theorem walk_eq_of_rep {heap : List (Node T)} {segs : List (Nat × List T)} :
    ∀ {p : Option Nat} (fuel : Nat), Rep heap p segs → segs.length ≤ fuel →
      walk heap fuel p = segs := by
  induction segs with
  | nil => intro p fuel h _; cases h; cases fuel <;> rfl
  | cons x rest ih =>
    obtain ⟨a, w⟩ := x
    intro p fuel h hf
    obtain ⟨hp, nd, hnd, hv, hrest⟩ := h
    subst hp
    cases fuel with
    | zero => simp at hf
    | succ fuel =>
      simp only [walk, hnd, hv]
      rw [ih fuel hrest (by simpa using hf)]

theorem nodup_length_le {l : List Nat} {n : Nat} (hn : l.Nodup) (hlt : ∀ a ∈ l, a < n) :
    l.length ≤ n := by
  have hsub : l ⊆ List.range n := fun a ha => List.mem_range.2 (hlt a ha)
  have := (List.subperm_of_subset hn hsub).length_le
  simpa using this

/-! ## Primitive heap updates preserve the pointer structure -/

theorem nodup_snoc {init : List (Nat × List T)} {t : Nat} {tv : List T} :
    ((init ++ [(t, tv)]).map Prod.fst).Nodup ↔
      (init.map Prod.fst).Nodup ∧ t ∉ init.map Prod.fst := by
  rw [List.map_append, List.nodup_append]
  constructor
  · rintro ⟨h1, _, h3⟩
    refine ⟨h1, fun hmem => h3 hmem ?_⟩
    simp
  · rintro ⟨h1, h2⟩
    refine ⟨h1, by simp, ?_⟩
    intro a ha hb
    simp only [List.map_cons, List.map_nil, List.mem_singleton] at hb
    subst hb
    exact h2 ha

theorem linked_snoc_tail {q : Queue T} {init : List (Nat × List T)} {t : Nat} {tv : List T}
    (h : Linked q (init ++ [(t, tv)])) : q.tail = some t :=
  h.tail (t, tv) (List.getLast?_concat init)

theorem linked_newHead (q : Queue T) : Linked (newHead q) [(q.heap.length, [])] := by
  refine ⟨?_, by simp, ?_⟩
  · refine ⟨rfl, newNode firstSliceSize, ?_, rfl, rfl⟩
    simp [newHead]
  · intro s hs
    simp only [List.getLast?_singleton, Option.some.injEq] at hs
    subst hs; rfl

theorem linked_appendTailV {q : Queue T} {init : List (Nat × List T)} {t : Nat} {tv : List T}
    (h : Linked q (init ++ [(t, tv)])) (xs : List T) :
    appendTailV q xs = some { q with heap := q.heap.set t { v := tv ++ xs, n := none } } ∧
    Linked { q with heap := q.heap.set t { v := tv ++ xs, n := none } }
      (init ++ [(t, tv ++ xs)]) := by
  have htail := linked_snoc_tail h
  have hlast := rep_snoc_last h.rep
  have hnd := nodup_snoc.1 h.nodup
  refine ⟨?_, ?_, ?_, ?_⟩
  · simp [appendTailV, htail, hlast]
  · exact rep_snoc_set (tv ++ xs) h.rep hnd.2
  · exact nodup_snoc.2 hnd
  · intro s hs
    rw [List.getLast?_concat] at hs
    simp only [Option.some.injEq] at hs
    subst hs; exact htail

theorem linked_linkNewTail {q : Queue T} {init : List (Nat × List T)} {t : Nat} {tv : List T}
    (h : Linked q (init ++ [(t, tv)])) :
    linkNewTail q = some (linkedState q t tv) ∧
    Linked (linkedState q t tv) (init ++ [(t, tv), (q.heap.length, [])]) := by
  have htail := linked_snoc_tail h
  have hlast := rep_snoc_last h.rep
  have hnd := nodup_snoc.1 h.nodup
  have hlt := rep_lt h.rep
  have htlt : t < q.heap.length := hlt (t, tv) (by simp)
  have hfresh : q.heap.length ∉ init.map Prod.fst := by
    intro hmem
    obtain ⟨s, hs, hs1⟩ := List.mem_map.1 hmem
    have := hlt s (by simp [hs])
    omega
  refine ⟨?_, ?_, ?_, ?_⟩
  · simp [linkNewTail, linkedState, htail, hlast]
  · have hrep : Rep (q.heap ++ [newNode maxInternalSliceSize]) q.head (init ++ [(t, tv)]) :=
      rep_frame_append _ h.rep
    have hnew : (q.heap ++ [newNode maxInternalSliceSize])[q.heap.length]? =
        some ({ v := [], n := none } : Node T) := by
      simp [newNode]
    exact rep_snoc_link q.heap.length [] hrep hnd.2 (by omega) hnew
  · have : init ++ [(t, tv), (q.heap.length, ([] : List T))] =
        (init ++ [(t, tv)]) ++ [(q.heap.length, [])] := by simp
    rw [this]
    refine nodup_snoc.2 ⟨h.nodup, ?_⟩
    rw [List.map_append, List.mem_append]
    rintro (hm | hm)
    · exact hfresh hm
    · simp only [List.map_cons, List.map_nil, List.mem_singleton] at hm
      omega
  · intro s hs
    have : init ++ [(t, tv), (q.heap.length, ([] : List T))] =
        (init ++ [(t, tv)]) ++ [(q.heap.length, [])] := by simp
    rw [this, List.getLast?_concat] at hs
    simp only [Option.some.injEq] at hs
    subst hs; rfl

theorem linked_length_le {q : Queue T} {segs : List (Nat × List T)} (h : Linked q segs) :
    segs.length ≤ q.heap.length := by
  have := nodup_length_le h.nodup (fun a ha => by
    obtain ⟨s, hs, hs1⟩ := List.mem_map.1 ha
    subst hs1
    exact rep_lt h.rep s hs)
  simpa using this

theorem chain_eq_of_linked {q : Queue T} {segs : List (Nat × List T)} (h : Linked q segs) :
    chain q = segs :=
  walk_eq_of_rep _ h.rep (linked_length_le h)

theorem contents_eq_of_linked {q : Queue T} {segs : List (Nat × List T)} (h : Linked q segs) :
    contents q = live q.hp segs := by
  simp [contents, chain_eq_of_linked h]

theorem linked_congr {q q1 : Queue T} {segs : List (Nat × List T)} (h : Linked q segs)
    (hheap : q1.heap = q.heap) (hhead : q1.head = q.head) (htail : q1.tail = q.tail) :
    Linked q1 segs := by
  refine ⟨?_, h.nodup, ?_⟩
  · rw [hheap, hhead]; exact h.rep
  · intro s hs; rw [htail]; exact h.tail s hs

theorem snoc_cases (segs : List (Nat × List T)) :
    segs = [] ∨ ∃ init t tv, segs = init ++ [(t, tv)] := by
  rcases List.eq_nil_or_concat segs with h | ⟨L, b, h⟩
  · exact Or.inl h
  · exact Or.inr ⟨L, b.1, b.2, by simpa using h⟩

/-! ## Lemmas on live contents and the cursor conditions -/

theorem slice_eq {v : List T} {s e : Nat} (hse : s ≤ e) (hev : e ≤ v.length) :
    slice v s e = some ((v.take e).drop s) := by
  simp [slice, hse, hev]

theorem take_drop_append_drop (v : List T) {s e : Nat} (hse : s ≤ e) :
    (v.take e).drop s ++ v.drop e = v.drop s := by
  have h1 : v.drop s = (v.take e ++ v.drop e).drop s := by rw [List.take_append_drop]
  rw [h1, List.drop_append_eq_append_drop]
  have h2 : s - (v.take e).length ≤ 0 ∨ v.length ≤ e := by
    rw [List.length_take]; omega
  rcases h2 with h2 | h2
  · have : s - (v.take e).length = 0 := by omega
    rw [this, List.drop_zero]
  · rw [List.drop_eq_nil_of_le h2]; simp

theorem live_snoc_append {hp : Nat} {init : List (Nat × List T)} {t : Nat} {tv : List T}
    (hok : segsOK hp (init ++ [(t, tv)])) (xs : List T) :
    live hp (init ++ [(t, tv ++ xs)]) = live hp (init ++ [(t, tv)]) ++ xs := by
  cases init with
  | nil =>
    have hle : hp ≤ tv.length := by
      rcases hok.1 with h | ⟨_, h⟩ <;> omega
    simp [live, List.drop_append_eq_append_drop, Nat.sub_eq_zero_of_le hle]
  | cons x rest =>
    obtain ⟨a, w⟩ := x
    simp [live]

theorem live_append {hp : Nat} {segs : List (Nat × List T)} (hne : segs ≠ [])
    (extra : List (Nat × List T)) :
    live hp (segs ++ extra) = live hp segs ++ (extra.map Prod.snd).flatten := by
  cases segs with
  | nil => exact absurd rfl hne
  | cons x rest =>
    obtain ⟨a, w⟩ := x
    simp [live]

theorem segsOK_snoc_append {hp : Nat} {init : List (Nat × List T)} {t : Nat} {tv : List T}
    (hok : segsOK hp (init ++ [(t, tv)])) (xs : List T) :
    segsOK hp (init ++ [(t, tv ++ xs)]) := by
  cases init with
  | nil =>
    refine ⟨?_, by simp⟩
    rcases hok.1 with h | ⟨h1, h2⟩
    · left; simp; omega
    · subst h1; subst h2
      cases xs with
      | nil => right; simp
      | cons y ys => left; simp
  | cons x rest =>
    obtain ⟨a, w⟩ := x
    refine ⟨hok.1, ?_⟩
    intro s hs
    rcases List.mem_append.1 hs with hs | hs
    · exact hok.2 s (List.mem_append_left _ hs)
    · simp only [List.mem_singleton] at hs
      subst hs
      have := hok.2 (t, tv) (by simp)
      simp at this ⊢
      intro h; exact absurd h this

theorem segsOK_append {hp : Nat} {segs : List (Nat × List T)} (hne : segs ≠ [])
    (hok : segsOK hp segs) {extra : List (Nat × List T)} (hex : ∀ s ∈ extra, s.2 ≠ []) :
    segsOK hp (segs ++ extra) := by
  cases segs with
  | nil => exact absurd rfl hne
  | cons x rest =>
    obtain ⟨a, w⟩ := x
    refine ⟨hok.1, ?_⟩
    intro s hs
    rcases List.mem_append.1 hs with hs | hs
    · exact hok.2 s hs
    · exact hex s hs

theorem headLive_snoc_append {hp : Nat} {init : List (Nat × List T)} {t : Nat} {tv : List T}
    (h : headLive hp (init ++ [(t, tv)])) (xs : List T) :
    headLive hp (init ++ [(t, tv ++ xs)]) := by
  cases init with
  | nil => simp only [List.nil_append, headLive, List.length_append] at h ⊢; omega
  | cons x rest => obtain ⟨a, w⟩ := x; exact h

theorem headLive_append {hp : Nat} {segs : List (Nat × List T)} (hne : segs ≠ [])
    (h : headLive hp segs) (extra : List (Nat × List T)) : headLive hp (segs ++ extra) := by
  cases segs with
  | nil => exact absurd rfl hne
  | cons x rest => obtain ⟨a, w⟩ := x; exact h

theorem linked_head_nil {q : Queue T} (h : Linked q []) : q.head = none := h.rep

theorem linked_head_snoc {q : Queue T} {init : List (Nat × List T)} {t : Nat} {tv : List T}
    (h : Linked q (init ++ [(t, tv)])) : ∃ a, q.head = some a := by
  have := h.rep
  cases init with
  | nil => exact ⟨t, this.1⟩
  | cons x rest => obtain ⟨a, w⟩ := x; exact ⟨a, this.1⟩

/-! ## Push -/

theorem push_abs {q : Queue T} {segs : List (Nat × List T)} (h : Abs q segs) (x : T) :
    ∃ q1 segs1, Push q x = some q1 ∧ Abs q1 segs1 ∧
      live q1.hp segs1 = live q.hp segs ++ [x] ∧ q1.hp = q.hp ∧
      (headLive q.hp segs → headLive q1.hp segs1) := by
  obtain ⟨⟨hl, hok⟩, hlen⟩ := h
  rcases snoc_cases segs with rfl | ⟨init, t, tv, rfl⟩
  · have hhead := linked_head_nil hl
    have hhp : q.hp = 0 := hok
    have hnh : Linked (newHead q) ([] ++ [(q.heap.length, [])]) := linked_newHead q
    obtain ⟨e1, l1⟩ := linked_appendTailV hnh [x]
    refine ⟨_, [(q.heap.length, [] ++ [x])], by simp only [Push, hhead, e1]; rfl,
      ⟨⟨?_, ?_⟩, ?_⟩, ?_, ?_, ?_⟩
    · exact linked_congr l1 rfl rfl rfl
    · simp [segsOK, newHead, hhp]
    · simp [live, newHead, hhp, hlen]
    · simp [live, newHead, hhp]
    · simp [newHead]
    · intro _; simp [headLive, newHead, hhp]
  · obtain ⟨a, hhead⟩ := linked_head_snoc hl
    have htail := linked_snoc_tail hl
    have hlast := rep_snoc_last hl.rep
    by_cases hfull : tv.length ≥ q.lastSliceSize
    · obtain ⟨e1, l1⟩ := linked_linkNewTail hl
      have l1b : Linked (linkedState q t tv) ((init ++ [(t, tv)]) ++ [(q.heap.length, [])]) := by
        simpa using l1
      obtain ⟨e2, l2⟩ := linked_appendTailV l1b [x]
      have hne : init ++ [(t, tv)] ≠ [] := by simp
      refine ⟨_, (init ++ [(t, tv)]) ++ [(q.heap.length, [] ++ [x])],
        by simp only [Push, hhead, htail, load, hlast, hfull, if_true, e1, e2]; rfl,
        ⟨⟨?_, ?_⟩, ?_⟩, ?_, ?_, ?_⟩
      · exact linked_congr l2 rfl rfl rfl
      · exact segsOK_append hne hok (by simp)
      · show _ + 1 = _
        rw [live_append hne]
        simp only [linkedState] at hlen ⊢
        rw [hlen]; simp
      · rw [live_append hne]; simp [linkedState]
      · simp [linkedState]
      · intro hh; exact headLive_append hne hh _
    · obtain ⟨e2, l2⟩ := linked_appendTailV hl [x]
      refine ⟨_, init ++ [(t, tv ++ [x])],
        by simp only [Push, hhead, htail, load, hlast, hfull, if_false, e2]; rfl,
        ⟨⟨?_, ?_⟩, ?_⟩, ?_, ?_, ?_⟩
      · exact linked_congr l2 rfl hhead.symm htail.symm
      · exact segsOK_snoc_append hok [x]
      · show _ + 1 = _
        rw [live_snoc_append hok, hlen]; simp
      · exact live_snoc_append hok [x]
      · rfl
      · intro hh; exact headLive_snoc_append hh [x]

/-! ## Unlinking the head node -/

theorem live_zero (segs : List (Nat × List T)) :
    live 0 segs = (segs.map Prod.snd).flatten := by
  cases segs with
  | nil => rfl
  | cons x rest => obtain ⟨a, w⟩ := x; simp [live]

theorem segsOK_rest {hp : Nat} {a : Nat} {w : List T} {rest : List (Nat × List T)}
    (hok : segsOK hp ((a, w) :: rest)) : segsOK 0 rest ∧ headLive 0 rest := by
  cases rest with
  | nil => exact ⟨rfl, trivial⟩
  | cons y r =>
    obtain ⟨b, u⟩ := y
    have hu : u ≠ [] := hok.2 (b, u) (by simp)
    have hpos : 0 < u.length := List.length_pos.2 hu
    exact ⟨⟨Or.inl hpos, fun s hs => hok.2 s (List.mem_cons_of_mem _ hs)⟩, hpos⟩

/-- Unlinking the head node (`n := q.head.n; q.head.n = nil; q.head = n`)
leaves a well-linked chain made of the remaining nodes. -/
theorem linked_unlink {q : Queue T} {a : Nat} {w : List T} {rest : List (Nat × List T)}
    (h : Linked q ((a, w) :: rest)) :
    ∃ nd, q.head = some a ∧ q.heap[a]? = some nd ∧ nd.v = w ∧
      ∀ q1 : Queue T, q1.heap = q.heap.set a { nd with n := none } → q1.head = nd.n →
        q1.tail = q.tail → Linked q1 rest := by
  obtain ⟨hhead, nd, hnd, hv, hrest⟩ := h.rep
  have hnodup := h.nodup
  simp only [List.map_cons, List.nodup_cons] at hnodup
  refine ⟨nd, hhead, hnd, hv, ?_⟩
  intro q1 h1 h2 h3
  refine ⟨?_, hnodup.2, ?_⟩
  · rw [h1, h2]; exact rep_frame_set a _ hrest hnodup.1
  · intro s hs
    rw [h3]
    apply h.tail s
    cases rest with
    | nil => simp at hs
    | cons y r => rw [List.getLast?_cons_cons]; exact hs

/-! ## Pop -/

theorem pop_nil {q : Queue T} (h : Linked q []) : Pop q = some (none, q) := by
  simp [Pop, linked_head_nil h]

theorem pop_abs {q : Queue T} {a : Nat} {w : List T} {rest : List (Nat × List T)}
    (h : Abs q ((a, w) :: rest)) (hlt : q.hp < w.length) :
    ∃ q1 segs1, Pop q = some (some (w.get ⟨q.hp, hlt⟩), q1) ∧ Abs q1 segs1 ∧
      live q.hp ((a, w) :: rest) = w.get ⟨q.hp, hlt⟩ :: live q1.hp segs1 ∧
      headLive q1.hp segs1 ∧
      (q.hp + 1 = w.length → segs1 = rest ∧ q1.hp = 0) ∧
      (q.hp + 1 < w.length → segs1 = (a, w) :: rest ∧ q1.hp = q.hp + 1) := by
  obtain ⟨⟨hl, hok⟩, hlen⟩ := h
  obtain ⟨nd, hhead, hnd, hv, hun⟩ := linked_unlink hl
  have hx : nd.v[q.hp]? = some (w.get ⟨q.hp, hlt⟩) := by
    subst hv; simp [List.getElem?_eq_getElem hlt]
  have hdrop : w.drop q.hp = w.get ⟨q.hp, hlt⟩ :: w.drop (q.hp + 1) := by
    exact List.drop_eq_getElem_cons hlt
  by_cases hend : q.hp + 1 ≥ nd.v.length
  · have hend1 : q.hp + 1 = w.length := by subst hv; omega
    have hnil : w.drop (q.hp + 1) = [] := List.drop_eq_nil_of_le (by omega)
    obtain ⟨hok1, hlive1⟩ := segsOK_rest hok
    have hL : live q.hp ((a, w) :: rest) = w.get ⟨q.hp, hlt⟩ :: live 0 rest := by
      rw [live_zero]
      show w.drop q.hp ++ _ = _
      rw [hdrop, hnil]; rfl
    refine ⟨{ q with heap := q.heap.set a { nd with n := none }, head := nd.n, hp := 0,
                     len := q.len - 1 }, rest,
      by simp only [Pop, hhead, hnd, hx, hend, if_true],
      ⟨⟨hun _ rfl rfl rfl, hok1⟩, ?_⟩, hL, hlive1, ?_, ?_⟩
    · show q.len - 1 = _
      rw [hlen, hL]; simp
    · intro _; exact ⟨rfl, rfl⟩
    · intro hcon; omega
  · have hend1 : q.hp + 1 < w.length := by subst hv; omega
    have hL : live q.hp ((a, w) :: rest) =
        w.get ⟨q.hp, hlt⟩ :: live (q.hp + 1) ((a, w) :: rest) := by
      show w.drop q.hp ++ _ = _
      rw [hdrop]; rfl
    refine ⟨{ q with hp := q.hp + 1, len := q.len - 1 }, (a, w) :: rest,
      by simp only [Pop, hhead, hnd, hx, hend, if_false],
      ⟨⟨linked_congr hl rfl rfl rfl, ?_⟩, ?_⟩, hL, hend1, ?_, ?_⟩
    · exact ⟨Or.inl hend1, hok.2⟩
    · show q.len - 1 = _
      rw [hlen, hL]; simp
    · intro hcon; omega
    · intro _; exact ⟨rfl, rfl⟩

/-- On an empty head slice `Pop` indexes out of range. -/
theorem pop_empty_head {q : Queue T} {a : Nat} {rest : List (Nat × List T)}
    (h : Linked q ((a, []) :: rest)) : Pop q = none := by
  obtain ⟨hhead, nd, hnd, hv, _⟩ := h.rep
  simp [Pop, hhead, hnd, hv]

/-! ## Dequeue -/

theorem dequeueLoop_stop (fuel : Nat) (q : Queue T) (count : Nat) (items : List T)
    (h : ¬ (count > 0 ∧ q.head ≠ none)) : dequeueLoop fuel q count items = some (items, q) := by
  cases fuel <;> simp only [dequeueLoop, h, if_false]

theorem dequeueLoop_shape : ∀ (segs : List (Nat × List T)) (fuel : Nat) (q : Queue T)
    (count : Nat) (items : List T), Shape q segs → segs.length ≤ fuel →
    ∃ q1 segs1, dequeueLoop fuel q count items =
        some (items ++ (live q.hp segs).take count, q1) ∧
      Shape q1 segs1 ∧
      live q1.hp segs1 = (live q.hp segs).drop count ∧
      q1.len = q.len - ((min count (live q.hp segs).length : Nat) : Int) ∧
      q1.heap.length = q.heap.length ∧
      ((live q.hp segs).length < count → segs1 = []) ∧
      segs1 <:+ segs ∧
      q1.tail = q.tail ∧ q1.tp = q.tp ∧ q1.lastSliceSize = q.lastSliceSize := by
  intro segs
  induction segs with
  | nil =>
    intro fuel q count items hs _
    have hhead := linked_head_nil hs.1
    refine ⟨q, [], ?_, hs, ?_, ?_, rfl, fun _ => rfl, List.suffix_refl _, rfl, rfl, rfl⟩
    · rw [dequeueLoop_stop _ _ _ _ (by simp [hhead])]; simp [live]
    · simp [live]
    · simp [live]
  | cons x rest ih =>
    obtain ⟨a, w⟩ := x
    intro fuel q count items hs hfuel
    obtain ⟨hl, hok⟩ := hs
    by_cases hpos : count > 0
    · obtain ⟨nd, hhead, hnd, hv, hun⟩ := linked_unlink hl
      have hcond : count > 0 ∧ q.head ≠ none := ⟨hpos, by simp [hhead]⟩
      have hle : q.hp ≤ w.length := by
        rcases hok.1 with h | ⟨_, h⟩ <;> omega
      cases fuel with
      | zero => simp at hfuel
      | succ fuel =>
        have hfuel1 : rest.length ≤ fuel := by simpa using hfuel
        have hliveq : live q.hp ((a, w) :: rest) = w.drop q.hp ++ live 0 rest := by
          rw [live_zero]; rfl
        have hDlen : (w.drop q.hp).length = w.length - q.hp := List.length_drop _ _
        by_cases hlt : count < nd.v.length - q.hp
        · have hlt1 : count < w.length - q.hp := by subst hv; exact hlt
          have hsl : slice nd.v q.hp (q.hp + count) =
              some ((w.take (q.hp + count)).drop q.hp) := by
            subst hv; exact slice_eq (by omega) (by omega)
          have htake : (live q.hp ((a, w) :: rest)).take count =
              (w.take (q.hp + count)).drop q.hp := by
            rw [hliveq, List.take_append_eq_append_take, hDlen,
              Nat.sub_eq_zero_of_le (by omega), List.take_zero, List.append_nil,
              List.take_drop]
          have hdrop : (live q.hp ((a, w) :: rest)).drop count =
              live (q.hp + count) ((a, w) :: rest) := by
            rw [hliveq, List.drop_append_eq_append_drop, hDlen,
              Nat.sub_eq_zero_of_le (by omega), List.drop_zero, List.drop_drop, live_zero]
            rfl
          refine ⟨{ q with hp := q.hp + count, len := q.len - (count : Int) }, (a, w) :: rest,
            ?_, ⟨linked_congr hl rfl rfl rfl, ⟨Or.inl (by show q.hp + count < w.length; omega),
              hok.2⟩⟩, hdrop.symm, ?_, rfl, ?_, List.suffix_refl _, rfl, rfl, rfl⟩
          · rw [dequeueLoop, if_pos hcond]
            simp only [hhead, hnd, hlt, if_true, hsl, htake]
          · show q.len - (count : Int) = _
            have : min count (live q.hp ((a, w) :: rest)).length = count := by
              rw [hliveq, List.length_append, hDlen]; omega
            rw [this]
          · intro hcon
            rw [hliveq, List.length_append, hDlen] at hcon
            omega
        · have hge : w.length - q.hp ≤ count := by subst hv; omega
          have hsl : slice nd.v q.hp (q.hp + (nd.v.length - q.hp)) = some (w.drop q.hp) := by
            subst hv
            rw [slice_eq (by omega) (by omega)]
            have : q.hp + (nd.v.length - q.hp) = nd.v.length := by omega
            rw [this, List.take_length]
          obtain ⟨hok1, _⟩ := segsOK_rest hok
          have hs1 : Shape
              ({ q with
                  heap := q.heap.set a { nd with n := none },
                  head := nd.n,
                  hp := 0,
                  len := q.len - ((q.hp + (nd.v.length - q.hp) - q.hp : Nat) : Int) } : Queue T)
              rest := ⟨hun _ rfl rfl rfl, hok1⟩
          obtain ⟨q1, segs1, e1, hsh1, hlive1, hlen1, hheap1, hall1, hsuf1, ht1, htp1, hls1⟩ :=
            ih fuel _ (count - (nd.v.length - q.hp)) (items ++ w.drop q.hp) hs1 hfuel1
          dsimp only at e1 hlive1 hlen1 hheap1 hall1
          have htk : (w.drop q.hp).take count = w.drop q.hp :=
            List.take_of_length_le (by rw [hDlen]; exact hge)
          have hdk : (w.drop q.hp).drop count = [] :=
            List.drop_eq_nil_of_le (by rw [hDlen]; exact hge)
          refine ⟨q1, segs1, ?_, hsh1, ?_, ?_, ?_, ?_, ?_, ht1, htp1, hls1⟩
          · rw [dequeueLoop, if_pos hcond]
            simp only [hhead, hnd, hlt, if_false, hsl]
            rw [e1, hliveq, List.take_append_eq_append_take, hDlen, htk, hv, List.append_assoc]
          · rw [hlive1, hliveq, List.drop_append_eq_append_drop, hDlen, hdk, hv,
              List.nil_append]
          · rw [hlen1, hliveq, List.length_append, hDlen]
            subst hv
            have e3 : q.hp + (nd.v.length - q.hp) - q.hp = nd.v.length - q.hp := by omega
            rw [e3]
            rcases Nat.le_total (count - (nd.v.length - q.hp)) (live 0 rest).length with h4 | h4
            · rw [Nat.min_eq_left h4, Nat.min_eq_left (by omega)]
              omega
            · rw [Nat.min_eq_right h4, Nat.min_eq_right (by omega)]
              push_cast
              omega
          · simpa using hheap1
          · intro hcon
            apply hall1
            rw [hliveq, List.length_append, hDlen] at hcon
            subst hv
            omega
          · exact hsuf1.trans (List.suffix_cons _ _)
    · refine ⟨q, (a, w) :: rest, ?_, ⟨hl, hok⟩, ?_, ?_, rfl, ?_, List.suffix_refl _,
        rfl, rfl, rfl⟩
      · have h0 : count = 0 := by omega
        rw [dequeueLoop_stop _ _ _ _ (by simp [h0])]; simp [h0]
      · have h0 : count = 0 := by omega
        simp [h0]
      · have h0 : count = 0 := by omega
        simp [h0]
      · intro hcon; omega

/-- The method `Dequeue` with the capacity check spelt out: only a negative
`count` is rejected. -/
theorem dequeue_unfold (q : Queue T) (count : Int) :
    Dequeue q count =
      match q.head with
      | none => some ([], q)
      | some _ =>
        if count < 0 then none else dequeueLoop q.heap.length q count.toNat [] := by
  unfold Dequeue DequeueIn
  cases q.head with
  | none => rfl
  | some a =>
    by_cases hc : count < 0
    · have hm : makeAccepts count.toNat count = false := by
        simp only [makeAccepts, decide_eq_false_iff_not]; omega
      simp [hm, hc]
    · have hm : makeAccepts count.toNat count = true := by
        simp only [makeAccepts, decide_eq_true_eq]; omega
      simp [hm, hc]

/-- Within the limit of `make`, or with a nil head, the method on a runtime
with limit `maxCap` is `Dequeue`. -/
theorem dequeueIn_eq (maxCap : Nat) (q : Queue T) (count : Int)
    (h : q.head = none ∨ count ≤ (maxCap : Int)) :
    DequeueIn maxCap q count = Dequeue q count := by
  unfold Dequeue DequeueIn
  cases hh : q.head with
  | none => rfl
  | some a =>
    have hc : count ≤ (maxCap : Int) := by
      rcases h with h | h
      · rw [hh] at h; cases h
      · exact h
    have hm : makeAccepts maxCap count = makeAccepts count.toNat count := by
      simp only [makeAccepts, decide_eq_decide]; omega
    simp only [hm]

/-- Beyond the limit of `make` the method panics whenever the head is not
nil. -/
theorem dequeueIn_panics (maxCap : Nat) (q : Queue T) (count : Int)
    (hh : q.head ≠ none) (hc : (maxCap : Int) < count) :
    DequeueIn maxCap q count = none := by
  unfold DequeueIn
  cases hq : q.head with
  | none => exact absurd hq hh
  | some a =>
    have hm : makeAccepts maxCap count = false := by
      simp only [makeAccepts, decide_eq_false_iff_not]; omega
    simp [hm]

theorem dequeue_abs {q : Queue T} {segs : List (Nat × List T)} (h : Abs q segs) (k : Nat) :
    ∃ q1 segs1, Dequeue q (k : Int) = some ((live q.hp segs).take k, q1) ∧
      Abs q1 segs1 ∧
      live q1.hp segs1 = (live q.hp segs).drop k ∧
      ((live q.hp segs).length < k → segs1 = []) ∧
      segs1 <:+ segs ∧
      q1.tail = q.tail ∧ q1.tp = q.tp ∧ q1.lastSliceSize = q.lastSliceSize := by
  obtain ⟨hs, hlen⟩ := h
  cases hh : q.head with
  | none =>
    have hnil : segs = [] := by
      cases segs with
      | nil => rfl
      | cons x rest =>
        obtain ⟨a, w⟩ := x
        have := hs.1.rep.1
        rw [hh] at this; cases this
    subst hnil
    refine ⟨q, [], ?_, ⟨hs, hlen⟩, by simp [live], fun _ => rfl, List.suffix_refl _,
      rfl, rfl, rfl⟩
    simp [dequeue_unfold, hh, live]
  | some a =>
    obtain ⟨q1, segs1, e1, hsh1, hlive1, hlen1, _, hall1, hsuf1, ht1, htp1, hls1⟩ :=
      dequeueLoop_shape segs q.heap.length q k [] hs (linked_length_le hs.1)
    refine ⟨q1, segs1, ?_, ⟨hsh1, ?_⟩, hlive1, hall1, hsuf1, ht1, htp1, hls1⟩
    · have hk : ¬ ((k : Int) < 0) := by omega
      simp only [dequeue_unfold, hh, hk, if_false, Int.toNat_ofNat, e1, List.nil_append]
    · rw [hlive1, hlen1, hlen, List.length_drop]
      omega

/-! ## Enqueue -/

theorem maxInternalSliceSize_pos : 0 < maxInternalSliceSize := by decide

theorem enqueueLoop_linked (v : List T) : ∀ (fuel : Nat) (q : Queue T)
    (segs : List (Nat × List T)) (vEnd : Nat), Linked q segs → segs ≠ [] →
    vEnd ≤ v.length → v.length - vEnd ≤ fuel →
    ∃ q1 extra, enqueueLoop v v.length fuel q vEnd (v.length - vEnd) = some q1 ∧
      Linked q1 (segs ++ extra) ∧
      (extra.map Prod.snd).flatten = v.drop vEnd ∧
      (∀ s ∈ extra, s.2 ≠ []) ∧
      q1.hp = q.hp ∧ q1.len = q.len ∧ q1.head = q.head := by
  intro fuel
  induction fuel with
  | zero =>
    intro q segs vEnd hl _ hle hfuel
    have h0 : v.length - vEnd = 0 := by omega
    refine ⟨q, [], ?_, by simpa using hl, ?_, by simp, rfl, rfl, rfl⟩
    · simp [enqueueLoop, h0]
    · simp [List.drop_eq_nil_of_le (show v.length ≤ vEnd by omega)]
  | succ fuel ih =>
    intro q segs vEnd hl hne hle hfuel
    by_cases hrem : v.length - vEnd > 0
    · rcases snoc_cases segs with rfl | ⟨init, t, tv, rfl⟩
      · exact absurd rfl hne
      · have hl0 : Linked ({ q with tp := 0 } : Queue T) (init ++ [(t, tv)]) :=
          linked_congr hl rfl rfl rfl
        obtain ⟨e1, l1⟩ := linked_linkNewTail hl0
        have l1b : Linked (linkedState ({ q with tp := 0 } : Queue T) t tv)
            ((init ++ [(t, tv)]) ++ [(q.heap.length, [])]) := by simpa using l1
        obtain ⟨vEnd1, hvEnd1⟩ : ∃ e, e = (if v.length - vEnd > maxInternalSliceSize
            then vEnd + maxInternalSliceSize else vEnd + (v.length - vEnd)) := ⟨_, rfl⟩
        have hb : vEnd < vEnd1 ∧ vEnd1 ≤ v.length := by
          have := maxInternalSliceSize_pos
          rw [hvEnd1]; split <;> omega
        have hsl : slice v vEnd vEnd1 = _ := slice_eq (Nat.le_of_lt hb.1) hb.2
        obtain ⟨e2, l2⟩ := linked_appendTailV l1b ((v.take vEnd1).drop vEnd)
        have l2c : Linked
            ({ (linkedState ({ q with tp := 0 } : Queue T) t tv) with
              heap := (linkedState ({ q with tp := 0 } : Queue T) t tv).heap.set q.heap.length
                { v := [] ++ (v.take vEnd1).drop vEnd, n := none },
              tp := (linkedState ({ q with tp := 0 } : Queue T) t tv).tp + (vEnd1 - vEnd) } :
              Queue T)
            ((init ++ [(t, tv)]) ++ [(q.heap.length, [] ++ (v.take vEnd1).drop vEnd)]) :=
          linked_congr l2 rfl rfl rfl
        obtain ⟨q1, extra, e3, l3, hfl, hex, hhp, hlen, hhead⟩ :=
          ih _ _ vEnd1 l2c (by simp) hb.2 (by omega)
        refine ⟨q1, (q.heap.length, [] ++ (v.take vEnd1).drop vEnd) :: extra, ?_, ?_, ?_, ?_,
          hhp, hlen, hhead⟩
        · rw [enqueueLoop, if_pos hrem]
          simp only [e1, ← hvEnd1, appendToTail, hsl, e2]
          exact e3
        · simpa using l3
        · simp only [List.map_cons, List.flatten_cons, hfl, List.nil_append]
          exact take_drop_append_drop v (Nat.le_of_lt hb.1)
        · intro s hs
          rcases List.mem_cons.1 hs with rfl | hs
          · intro hnil
            have : ((v.take vEnd1).drop vEnd).length = 0 := by
              simp only [List.nil_append] at hnil; rw [hnil]; rfl
            rw [List.length_drop, List.length_take] at this
            omega
          · exact hex s hs
    · have h0 : v.length - vEnd = 0 := by omega
      refine ⟨q, [], ?_, by simpa using hl, ?_, by simp, rfl, rfl, rfl⟩
      · simp [enqueueLoop, h0]
      · simp [List.drop_eq_nil_of_le (show v.length ≤ vEnd by omega)]

theorem enqueueFirst_spec {q : Queue T} {segs : List (Nat × List T)} (hs : Shape q segs)
    (n : Nat) :
    ∃ init t tv, Linked (enqueueFirst q n).1 (init ++ [(t, tv)]) ∧
      segsOK q.hp (init ++ [(t, tv)]) ∧
      live q.hp (init ++ [(t, tv)]) = live q.hp segs ∧
      (enqueueFirst q n).1.len = q.len ∧ (enqueueFirst q n).1.hp = q.hp ∧
      (enqueueFirst q n).2 ≤ n := by
  obtain ⟨hl, hok⟩ := hs
  rcases snoc_cases segs with rfl | ⟨init, t, tv, rfl⟩
  · have hhead := linked_head_nil hl
    have hhp : q.hp = 0 := hok
    have h1 : (enqueueFirst q n).1 = newHead q := by
      simp only [enqueueFirst, hhead]; split <;> rfl
    have h2 : (enqueueFirst q n).2 ≤ n := by
      simp only [enqueueFirst, hhead]; split
      · rename_i h; exact Nat.le_of_lt h
      · exact Nat.le_refl _
    refine ⟨[], q.heap.length, [], ?_, ?_, ?_, ?_, ?_, h2⟩
    · rw [h1]; exact linked_newHead q
    · exact ⟨Or.inr ⟨rfl, hhp⟩, by simp⟩
    · simp [live]
    · rw [h1]; rfl
    · rw [h1]; rfl
  · obtain ⟨a, hhead⟩ := linked_head_snoc hl
    have h1 : (enqueueFirst q n).1 = q := by
      simp only [enqueueFirst, hhead]; split
      · split <;> rfl
      · rfl
    have h2 : (enqueueFirst q n).2 ≤ n := by
      simp only [enqueueFirst, hhead]; split
      · split
        · rename_i h; exact Nat.le_of_lt h
        · exact Nat.le_refl _
      · exact Nat.zero_le _
    refine ⟨init, t, tv, ?_, hok, rfl, ?_, ?_, h2⟩
    · rw [h1]; exact hl
    · rw [h1]
    · rw [h1]

theorem enqueue_abs {q : Queue T} {segs : List (Nat × List T)} (h : Abs q segs) (v : List T) :
    ∃ q1 segs1, Enqueue q v = some q1 ∧ Abs q1 segs1 ∧
      live q1.hp segs1 = live q.hp segs ++ v ∧ q1.hp = q.hp := by
  obtain ⟨hs, hlen⟩ := h
  obtain ⟨init, t, tv, hl, hok, hlive, hlenF, hhpF, hle⟩ := enqueueFirst_spec hs v.length
  obtain ⟨qa, hqa⟩ : ∃ qa, qa = (enqueueFirst q v.length).1 := ⟨_, rfl⟩
  obtain ⟨vEnd, hvEnd⟩ : ∃ e, e = (enqueueFirst q v.length).2 := ⟨_, rfl⟩
  rw [← hqa] at hl hlenF hhpF
  rw [← hvEnd] at hle
  -- the part of v that goes to the current tail node
  have hB : ∃ qb, (if 0 ≠ vEnd then appendToTail qa v 0 vEnd v.length
        else some (qa, v.length)) = some (qb, v.length - vEnd) ∧
      Linked qb (init ++ [(t, tv ++ v.take vEnd)]) ∧ qb.hp = qa.hp ∧ qb.len = qa.len := by
    by_cases h0 : 0 ≠ vEnd
    · obtain ⟨e2, l2⟩ := linked_appendTailV hl (v.take vEnd)
      have hsl : slice v 0 vEnd = some (v.take vEnd) := by
        rw [slice_eq (Nat.zero_le _) hle]; rfl
      refine ⟨{ qa with heap := qa.heap.set t { v := tv ++ v.take vEnd, n := none },
                        tp := qa.tp + (vEnd - 0) }, ?_, linked_congr l2 rfl rfl rfl, rfl, rfl⟩
      rw [if_pos h0]
      simp only [appendToTail, hsl, e2]
    · have hz : vEnd = 0 := by omega
      subst hz
      refine ⟨qa, by simp, by simpa using hl, rfl, rfl⟩
  obtain ⟨qb, eB, lB, hhpB, hlenB⟩ := hB
  obtain ⟨q1, extra, e3, l3, hfl, hex, hhp3, hlen3, _⟩ :=
    enqueueLoop_linked v v.length qb _ vEnd lB (by simp) hle (by omega)
  have hne : init ++ [(t, tv ++ v.take vEnd)] ≠ [] := by simp
  have hliveAll : live q.hp ((init ++ [(t, tv ++ v.take vEnd)]) ++ extra) =
      live q.hp segs ++ v := by
    rw [live_append hne, live_snoc_append hok, hlive, hfl, List.append_assoc,
      List.take_append_drop]
  have hhp1 : q1.hp = q.hp := by rw [hhp3, hhpB, hhpF]
  refine ⟨{ q1 with len := q1.len + (v.length : Int) },
    (init ++ [(t, tv ++ v.take vEnd)]) ++ extra, ?_, ⟨⟨linked_congr l3 rfl rfl rfl, ?_⟩, ?_⟩,
    ?_, hhp1⟩
  · simp only [Enqueue, ← hqa, ← hvEnd, eB, e3]
  · show segsOK q1.hp _
    rw [hhp1]
    exact segsOK_append hne (segsOK_snoc_append hok _) hex
  · show q1.len + (v.length : Int) = ((live q1.hp _).length : Int)
    rw [hhp1, hliveAll, hlen3, hlenB, hlenF, hlen, List.length_append]
    push_cast; rfl
  · show live q1.hp _ = _
    rw [hhp1, hliveAll]

/-! ## The invariant holds in every reachable state -/

theorem abs_init (q : Queue T) : Abs (Init q) [] :=
  ⟨⟨⟨rfl, by simp, by simp⟩, rfl⟩, rfl⟩

theorem abs_newQueue : Abs (NewQueue : Queue T) [] := abs_init _

theorem abs_step {q q1 : Queue T} {segs : List (Nat × List T)} (h : Abs q segs) (op : Op T)
    (hstep : step q op = some q1) : ∃ segs1, Abs q1 segs1 := by
  cases op with
  | push v =>
    obtain ⟨q2, segs2, e, habs, _⟩ := push_abs h v
    simp only [step, e, Option.some.injEq] at hstep
    subst hstep; exact ⟨segs2, habs⟩
  | enqueue vs =>
    obtain ⟨q2, segs2, e, habs, _⟩ := enqueue_abs h vs
    simp only [step, e, Option.some.injEq] at hstep
    subst hstep; exact ⟨segs2, habs⟩
  | pop =>
    cases segs with
    | nil =>
      simp only [step, pop_nil h.1.1, Option.map_some', Option.some.injEq] at hstep
      subst hstep; exact ⟨[], h⟩
    | cons x rest =>
      obtain ⟨a, w⟩ := x
      rcases h.1.2.1 with hlt | ⟨hw, _⟩
      · obtain ⟨q2, segs2, e, habs, _⟩ := pop_abs h hlt
        simp only [step, e, Option.map_some', Option.some.injEq] at hstep
        subst hstep; exact ⟨segs2, habs⟩
      · subst hw
        simp [step, pop_empty_head h.1.1] at hstep
  | dequeue k =>
    obtain ⟨q2, segs2, e, habs, _⟩ := dequeue_abs h k
    simp only [step, e, Option.map_some', Option.some.injEq] at hstep
    subst hstep; exact ⟨segs2, habs⟩
  | init =>
    simp only [step, Option.some.injEq] at hstep
    subst hstep; exact ⟨[], abs_init q⟩

theorem reachable_abs {q : Queue T} (h : Reachable q) : ∃ segs, Abs q segs := by
  induction h with
  | new => exact ⟨[], abs_newQueue⟩
  | step op _ hstep ih =>
    obtain ⟨segs, habs⟩ := ih
    exact abs_step habs op hstep

theorem reachable_runOps {q : Queue T} (h : Reachable q) :
    ∀ (ops : List (Op T)) (q1 : Queue T), runOps q ops = some q1 → Reachable q1 := by
  intro ops
  induction ops generalizing q with
  | nil => intro q1 e; simp only [runOps, Option.some.injEq] at e; subst e; exact h
  | cons op ops ih =>
    intro q1 e
    simp only [runOps] at e
    cases hs : step q op with
    | none => rw [hs] at e; cases e
    | some q2 => rw [hs] at e; exact ih (Reachable.step op h hs) q1 e

theorem contents_of_abs {q : Queue T} {segs : List (Nat × List T)} (h : Abs q segs) :
    contents q = live q.hp segs := contents_eq_of_linked h.1.1

/-! ## Sequences of `Push` and `Pop` -/

theorem pushAll_abs : ∀ (vs : List T) (q : Queue T) (segs : List (Nat × List T)),
    Abs q segs → headLive q.hp segs →
    ∃ q1 segs1, pushAll q vs = some q1 ∧ Abs q1 segs1 ∧
      live q1.hp segs1 = live q.hp segs ++ vs ∧ headLive q1.hp segs1 := by
  intro vs
  induction vs with
  | nil => intro q segs h hh; exact ⟨q, segs, rfl, h, by simp, hh⟩
  | cons x xs ih =>
    intro q segs h hh
    obtain ⟨q1, segs1, e1, h1, hl1, _, hh1⟩ := push_abs h x
    obtain ⟨q2, segs2, e2, h2, hl2, hh2⟩ := ih q1 segs1 h1 (hh1 hh)
    refine ⟨q2, segs2, ?_, h2, ?_, hh2⟩
    · simp only [pushAll, e1, e2]
    · rw [hl2, hl1]; simp

theorem segs_nil_of_live_nil {hp : Nat} {segs : List (Nat × List T)}
    (hh : headLive hp segs) (hnil : live hp segs = []) : segs = [] := by
  cases segs with
  | nil => rfl
  | cons x rest =>
    obtain ⟨a, w⟩ := x
    have hlt : hp < w.length := hh
    have : (live hp ((a, w) :: rest)).length = 0 := by rw [hnil]; rfl
    simp only [live, List.length_append, List.length_drop] at this
    omega

theorem popN_abs : ∀ (n : Nat) (q : Queue T) (segs : List (Nat × List T)),
    Abs q segs → headLive q.hp segs →
    ∃ q1 segs1, popN n q = some (((live q.hp segs).take n).map some ++
        List.replicate (n - (live q.hp segs).length) none, q1) ∧
      Abs q1 segs1 ∧ headLive q1.hp segs1 ∧
      live q1.hp segs1 = (live q.hp segs).drop n := by
  intro n
  induction n with
  | zero => intro q segs h hh; exact ⟨q, segs, by simp [popN], h, hh, by simp⟩
  | succ n ih =>
    intro q segs h hh
    cases segs with
    | nil =>
      obtain ⟨q1, segs1, e1, h1, hh1, hl1⟩ := ih q [] h hh
      refine ⟨q1, segs1, ?_, h1, hh1, ?_⟩
      · simp only [popN, pop_nil h.1.1, e1]
        simp [live, List.replicate_succ]
      · rw [hl1]; simp [live]
    | cons x rest =>
      obtain ⟨a, w⟩ := x
      have hlt : q.hp < w.length := hh
      obtain ⟨q1, segs1, e1, h1, hl1, hh1, _⟩ := pop_abs h hlt
      obtain ⟨q2, segs2, e2, h2, hh2, hl2⟩ := ih q1 segs1 h1 hh1
      refine ⟨q2, segs2, ?_, h2, hh2, ?_⟩
      · simp only [popN, e1, e2]
        rw [hl1]
        simp
      · rw [hl2, hl1]; simp

theorem reachable_twoPushed : Reachable twoPushed :=
  reachable_runOps Reachable.new [Op.push 1, Op.push 2] _ rfl

theorem reachable_twentyQueued : Reachable twentyQueued :=
  reachable_runOps Reachable.new [Op.enqueue (List.range 20)] _ rfl

theorem reachable_staleHeadQueue : Reachable staleHeadQueue :=
  reachable_runOps Reachable.new staleHeadOps _ rfl

/-! ## More facts on reachable states -/

theorem reachable_drainedQueue : Reachable drainedQueue :=
  reachable_runOps Reachable.new [Op.push 1, Op.pop] _ rfl

theorem reachable_onePushed : Reachable onePushed :=
  reachable_runOps Reachable.new [Op.push 1] _ rfl

theorem reachable_overfullQueue : Reachable overfullQueue :=
  reachable_runOps Reachable.new overfillOps _ rfl

theorem live_length (hp : Nat) (a : Nat) (w : List T) (rest : List (Nat × List T))
    (hle : hp ≤ w.length) :
    ((live hp ((a, w) :: rest)).length : Int) =
      (((((a, w) :: rest).map (fun s => s.2.length)).sum : Nat) : Int) - (hp : Int) := by
  simp only [live, List.length_append, List.length_drop, List.length_flatten, List.map_map,
    List.map_cons, List.sum_cons]
  have : (List.map (List.length ∘ Prod.snd) rest) = List.map (fun s => s.2.length) rest := rfl
  rw [this]
  omega

theorem segsOK_hp_le {hp : Nat} {a : Nat} {w : List T} {rest : List (Nat × List T)}
    (hok : segsOK hp ((a, w) :: rest)) : hp ≤ w.length := by
  rcases hok.1 with h | ⟨_, h⟩ <;> omega

theorem linked_nil_of_head_none {q : Queue T} {segs : List (Nat × List T)} (h : Linked q segs)
    (hh : q.head = none) : segs = [] := by
  cases segs with
  | nil => rfl
  | cons x rest =>
    obtain ⟨a, w⟩ := x
    have := h.rep.1
    rw [hh] at this; cases this

/-! ## The queue refines its view: read-only calls, `Push`, `Pop` -/

theorem countNodes_of_rep {heap : List (Node T)} {segs : List (Nat × List T)} :
    ∀ {p : Option Nat} (fuel c : Nat), Rep heap p segs → segs.length ≤ fuel →
      countNodes heap fuel p c = some (c + segs.length) := by
  induction segs with
  | nil =>
    intro p fuel c h _
    cases h
    cases fuel <;> simp [countNodes]
  | cons x rest ih =>
    obtain ⟨a, w⟩ := x
    intro p fuel c h hf
    obtain ⟨hp, nd, hnd, hv, hrest⟩ := h
    subst hp
    cases fuel with
    | zero => simp at hf
    | succ fuel =>
      simp only [countNodes, hnd]
      rw [ih fuel (c + 1) hrest (by simpa using hf)]
      simp only [List.length_cons]
      congr 1
      omega

theorem noOfNodes_of_linked {q : Queue T} {segs : List (Nat × List T)} (h : Linked q segs) :
    NoOfNodes q = some segs.length := by
  have := countNodes_of_rep q.heap.length 0 h.rep (linked_length_le h)
  simpa [NoOfNodes] using this

theorem refines_init (q : Queue T) :
    Refines (Init q) { vals := [], hp := 0, tp := 0, len := 0, lss := 0 } :=
  ⟨[], (abs_init q).1, rfl, rfl, rfl, rfl, fun h => absurd rfl h⟩

theorem refines_nodes {q : Queue T} {a : View T} (h : Refines q a) :
    NoOfNodes q = some a.vals.length := by
  obtain ⟨segs, hs, hvals, _⟩ := h
  rw [noOfNodes_of_linked hs.1, ← hvals, List.length_map]

theorem refines_length {q : Queue T} {a : View T} (h : Refines q a) : Length q = a.len := by
  obtain ⟨segs, _, _, _, _, hlen, _⟩ := h
  exact hlen

theorem refines_front {q : Queue T} {a : View T} (h : Refines q a) :
    Front q = viewFront a := by
  obtain ⟨segs, hs, hvals, hhp, _⟩ := h
  cases segs with
  | nil =>
    simp only [List.map_nil] at hvals
    simp [Front, viewFront, linked_head_nil hs.1, ← hvals]
  | cons x rest =>
    obtain ⟨b, w⟩ := x
    obtain ⟨hhead, nd, hnd, hv, _⟩ := hs.1.rep
    simp only [List.map_cons] at hvals
    simp only [Front, viewFront, hhead, hnd, ← hvals, ← hhp, hv]

theorem refines_pop {q : Queue T} {a : View T} (h : Refines q a) :
    (viewPop a = none ∧ Pop q = none) ∨
      ∃ r a1 q1, viewPop a = some (r, a1) ∧ Pop q = some (r, q1) ∧ Refines q1 a1 := by
  obtain ⟨segs, hs, hvals, hhp, htp, hlen, hlss⟩ := h
  obtain ⟨vals, ahp, atp, alen, alss⟩ := a
  simp only at hvals hhp htp hlen hlss
  subst hvals hhp htp hlen
  cases segs with
  | nil =>
    right
    exact ⟨none, _, q, rfl, pop_nil hs.1, ⟨[], hs, rfl, rfl, rfl, rfl, hlss⟩⟩
  | cons x rest =>
    obtain ⟨b, w⟩ := x
    have hlss1 : q.lastSliceSize = alss := hlss (by simp)
    rcases hs.2.1 with hlt | ⟨hw, h0⟩
    · right
      obtain ⟨nd, hhead, hnd, hv, hun⟩ := linked_unlink hs.1
      have hxw : w[q.hp]? = some (w.get ⟨q.hp, hlt⟩) := by
        simp [List.getElem?_eq_getElem hlt]
      have hx : nd.v[q.hp]? = some (w.get ⟨q.hp, hlt⟩) := by rw [hv]; exact hxw
      by_cases hend : q.hp + 1 ≥ w.length
      · have hend1 : q.hp + 1 ≥ nd.v.length := by rw [hv]; exact hend
        refine ⟨some (w.get ⟨q.hp, hlt⟩),
          { vals := rest.map Prod.snd, hp := 0, tp := q.tp, len := q.len - 1, lss := alss },
          { q with heap := q.heap.set b { nd with n := none }, head := nd.n, hp := 0,
                   len := q.len - 1 }, ?_, ?_, ?_⟩
        · simp only [viewPop, List.map_cons, hxw, hend, if_true]
        · simp only [Pop, hhead, hnd, hx, hend1, if_true]
        · exact ⟨rest, ⟨hun _ rfl rfl rfl, (segsOK_rest hs.2).1⟩, rfl, rfl, rfl, rfl,
            fun _ => hlss1⟩
      · have hend1 : ¬ q.hp + 1 ≥ nd.v.length := by rw [hv]; exact hend
        refine ⟨some (w.get ⟨q.hp, hlt⟩),
          { vals := ((b, w) :: rest).map Prod.snd, hp := q.hp + 1, tp := q.tp,
            len := q.len - 1, lss := alss },
          { q with hp := q.hp + 1, len := q.len - 1 }, ?_, ?_, ?_⟩
        · simp only [viewPop, List.map_cons, hxw, hend, if_false]
        · simp only [Pop, hhead, hnd, hx, hend1, if_false]
        · refine ⟨(b, w) :: rest, ⟨linked_congr hs.1 rfl rfl rfl, ?_⟩, rfl, rfl, rfl, rfl,
            fun _ => hlss1⟩
          exact ⟨Or.inl (by show q.hp + 1 < w.length; omega), hs.2.2⟩
    · left
      subst hw
      refine ⟨?_, pop_empty_head hs.1⟩
      simp [viewPop]

theorem appendLast_concat (ivals : List (List T)) (tv xs : List T) :
    appendLast (ivals ++ [tv]) xs = ivals ++ [tv ++ xs] := by
  simp [appendLast, List.getLast?_concat, List.dropLast_concat]

theorem map_snd_snoc (init : List (Nat × List T)) (t : Nat) (tv : List T) :
    (init ++ [(t, tv)]).map Prod.snd = init.map Prod.snd ++ [tv] := by simp

theorem refines_push {q : Queue T} {a : View T} (h : Refines q a) (x : T) :
    ∃ q1, Push q x = some q1 ∧ Refines q1 (viewPush a x) := by
  obtain ⟨segs, hs, hvals, hhp, htp, hlen, hlss⟩ := h
  obtain ⟨vals, ahp, atp, alen, alss⟩ := a
  simp only at hvals hhp htp hlen hlss
  subst hvals hhp htp hlen
  obtain ⟨hl, hok⟩ := hs
  rcases snoc_cases segs with rfl | ⟨init, t, tv, rfl⟩
  · have hhead := linked_head_nil hl
    have hhp : q.hp = 0 := hok
    have hnh : Linked (newHead q) ([] ++ [(q.heap.length, [])]) := linked_newHead q
    obtain ⟨e1, l1⟩ := linked_appendTailV hnh [x]
    refine ⟨{ (newHead q) with
        heap := (newHead q).heap.set q.heap.length { v := [] ++ [x], n := none },
        len := (newHead q).len + 1 },
      by simp only [Push, hhead, e1], [(q.heap.length, [] ++ [x])],
      ⟨linked_congr l1 rfl rfl rfl, ?_⟩, ?_, ?_, ?_, ?_, ?_⟩
    · simp [segsOK, newHead, hhp]
    · simp [viewPush]
    · simp [viewPush, newHead]
    · simp [viewPush, newHead]
    · simp [viewPush, newHead]
    · intro _; simp [viewPush, newHead]
  · obtain ⟨b, hhead⟩ := linked_head_snoc hl
    have htail := linked_snoc_tail hl
    have hlast := rep_snoc_last hl.rep
    have hlss1 : q.lastSliceSize = alss := hlss (by simp)
    subst hlss1
    have hgl : ((init ++ [(t, tv)]).map Prod.snd).getLast? = some tv := by
      rw [map_snd_snoc, List.getLast?_concat]
    by_cases hfull : tv.length ≥ q.lastSliceSize
    · obtain ⟨e1, l1⟩ := linked_linkNewTail hl
      have l1b : Linked (linkedState q t tv) ((init ++ [(t, tv)]) ++ [(q.heap.length, [])]) := by
        simpa using l1
      obtain ⟨e2, l2⟩ := linked_appendTailV l1b [x]
      have hne : init ++ [(t, tv)] ≠ [] := by simp
      refine ⟨{ (linkedState q t tv) with
          heap := (linkedState q t tv).heap.set q.heap.length { v := [] ++ [x], n := none },
          len := (linkedState q t tv).len + 1 },
        by simp only [Push, hhead, htail, load, hlast, hfull, if_true, e1, e2],
        (init ++ [(t, tv)]) ++ [(q.heap.length, [] ++ [x])],
        ⟨linked_congr l2 rfl rfl rfl, segsOK_append hne hok (by simp)⟩, ?_, ?_, ?_, ?_, ?_⟩
      · simp only [viewPush, hgl, hfull, if_true]; simp
      · simp only [viewPush, hgl, hfull, if_true]; rfl
      · simp only [viewPush, hgl, hfull, if_true]; rfl
      · simp only [viewPush, hgl, hfull, if_true]; rfl
      · intro _; simp only [viewPush, hgl, hfull, if_true]; rfl
    · obtain ⟨e2, l2⟩ := linked_appendTailV hl [x]
      refine ⟨{ q with heap := q.heap.set t { v := tv ++ [x], n := none }, len := q.len + 1 },
        by simp only [Push, hhead, htail, load, hlast, hfull, if_false, e2],
        init ++ [(t, tv ++ [x])],
        ⟨linked_congr l2 rfl rfl rfl, segsOK_snoc_append hok [x]⟩,
        ?_, ?_, ?_, ?_, ?_⟩
      · simp only [viewPush, hgl, hfull, if_false]
        rw [map_snd_snoc, map_snd_snoc, appendLast_concat]
      · simp only [viewPush, hgl, hfull, if_false]
      · simp only [viewPush, hgl, hfull, if_false]
      · simp only [viewPush, hgl, hfull, if_false]
      · intro _; simp only [viewPush, hgl, hfull, if_false]

/-! ## The queue refines its view: `Dequeue` -/

theorem dequeueLoop_view : ∀ (segs : List (Nat × List T)) (fuel : Nat) (q : Queue T)
    (count : Nat) (items : List T), Shape q segs → segs.length ≤ fuel →
    ∃ q1 segs1, dequeueLoop fuel q count items =
        some (items ++ (viewDeq (segs.map Prod.snd) q.hp count).1, q1) ∧
      Shape q1 segs1 ∧
      segs1.map Prod.snd = (viewDeq (segs.map Prod.snd) q.hp count).2.1 ∧
      q1.hp = (viewDeq (segs.map Prod.snd) q.hp count).2.2 ∧
      q1.len = q.len - (((viewDeq (segs.map Prod.snd) q.hp count).1.length : Nat) : Int) ∧
      q1.tp = q.tp ∧ q1.lastSliceSize = q.lastSliceSize := by
  intro segs
  induction segs with
  | nil =>
    intro fuel q count items hs _
    have hhead := linked_head_nil hs.1
    refine ⟨q, [], ?_, hs, rfl, rfl, ?_, rfl, rfl⟩
    · rw [dequeueLoop_stop _ _ _ _ (by simp [hhead])]; simp [viewDeq]
    · simp [viewDeq]
  | cons x rest ih =>
    obtain ⟨a, w⟩ := x
    intro fuel q count items hs hfuel
    obtain ⟨hl, hok⟩ := hs
    by_cases hpos : count > 0
    · have hc0 : ¬ count = 0 := by omega
      obtain ⟨nd, hhead, hnd, hv, hun⟩ := linked_unlink hl
      have hcond : count > 0 ∧ q.head ≠ none := ⟨hpos, by simp [hhead]⟩
      have hle : q.hp ≤ w.length := segsOK_hp_le hok
      cases fuel with
      | zero => simp at hfuel
      | succ fuel =>
        have hfuel1 : rest.length ≤ fuel := by simpa using hfuel
        by_cases hlt : count < w.length - q.hp
        · have hlt1 : count < nd.v.length - q.hp := by rw [hv]; exact hlt
          have hsl : slice nd.v q.hp (q.hp + count) = some ((w.drop q.hp).take count) := by
            rw [hv, slice_eq (by omega) (by omega), List.take_drop]
          have hview : viewDeq (((a, w) :: rest).map Prod.snd) q.hp count =
              ((w.drop q.hp).take count, ((a, w) :: rest).map Prod.snd, q.hp + count) := by
            simp only [List.map_cons, viewDeq, hc0, hlt, if_true, if_false]
          have hlen : ((w.drop q.hp).take count).length = count := by
            rw [List.length_take, List.length_drop]; omega
          rw [hview]
          refine ⟨{ q with hp := q.hp + count, len := q.len - (count : Int) }, (a, w) :: rest,
            ?_, ⟨linked_congr hl rfl rfl rfl, ⟨Or.inl (by show q.hp + count < w.length; omega),
              hok.2⟩⟩, rfl, rfl, ?_, rfl, rfl⟩
          · rw [dequeueLoop, if_pos hcond]
            simp only [hhead, hnd, hlt1, if_true, hsl]
          · show q.len - (count : Int) = _
            simp only [hlen]
        · have hlt1 : ¬ count < nd.v.length - q.hp := by rw [hv]; exact hlt
          have hsl : slice nd.v q.hp (q.hp + (nd.v.length - q.hp)) = some (w.drop q.hp) := by
            rw [hv, slice_eq (by omega) (by omega)]
            have : q.hp + (w.length - q.hp) = w.length := by omega
            rw [this, List.take_length]
          obtain ⟨hok1, _⟩ := segsOK_rest hok
          have hs1 : Shape
              ({ q with
                  heap := q.heap.set a { nd with n := none },
                  head := nd.n,
                  hp := 0,
                  len := q.len - ((q.hp + (nd.v.length - q.hp) - q.hp : Nat) : Int) } : Queue T)
              rest := ⟨hun _ rfl rfl rfl, hok1⟩
          obtain ⟨q1, segs1, e1, hsh1, hvals1, hhp1, hlen1, htp1, hls1⟩ :=
            ih fuel _ (count - (nd.v.length - q.hp)) (items ++ w.drop q.hp) hs1 hfuel1
          dsimp only at e1 hvals1 hhp1 hlen1 htp1 hls1
          rw [hv] at e1 hvals1 hhp1 hlen1
          have hview : viewDeq (((a, w) :: rest).map Prod.snd) q.hp count =
              (w.drop q.hp ++ (viewDeq (rest.map Prod.snd) 0 (count - (w.length - q.hp))).1,
               (viewDeq (rest.map Prod.snd) 0 (count - (w.length - q.hp))).2.1,
               (viewDeq (rest.map Prod.snd) 0 (count - (w.length - q.hp))).2.2) := by
            simp only [List.map_cons, viewDeq, hc0, hlt, if_false]
          rw [hview]
          refine ⟨q1, segs1, ?_, hsh1, hvals1, hhp1, ?_, htp1, hls1⟩
          · rw [dequeueLoop, if_pos hcond]
            simp only [hhead, hnd, hlt1, if_false, hsl]
            rw [hv, e1, List.append_assoc]
          · rw [hlen1]
            simp only [List.length_append, List.length_drop]
            push_cast
            omega
    · have h0 : count = 0 := by omega
      subst h0
      refine ⟨q, (a, w) :: rest, ?_, ⟨hl, hok⟩, ?_, ?_, ?_, rfl, rfl⟩
      · rw [dequeueLoop_stop _ _ _ _ (by simp)]; simp [viewDeq]
      · simp [viewDeq]
      · simp [viewDeq]
      · simp [viewDeq]

theorem refines_dequeue {q : Queue T} {a : View T} (h : Refines q a) (count : Int) :
    (viewDequeue a count = none ∧ Dequeue q count = none) ∨
      ∃ r a1 q1, viewDequeue a count = some (r, a1) ∧ Dequeue q count = some (r, q1) ∧
        Refines q1 a1 := by
  obtain ⟨segs, hs, hvals, hhp, htp, hlen, hlss⟩ := h
  obtain ⟨vals, ahp, atp, alen, alss⟩ := a
  simp only at hvals hhp htp hlen hlss
  subst hvals hhp htp hlen
  cases segs with
  | nil =>
    right
    refine ⟨[], _, q, rfl, ?_, ⟨[], hs, rfl, rfl, rfl, rfl, hlss⟩⟩
    simp [dequeue_unfold, linked_head_nil hs.1]
  | cons x rest =>
    obtain ⟨b, w⟩ := x
    have hlss1 : q.lastSliceSize = alss := hlss (by simp)
    have hhead := hs.1.rep.1
    by_cases hneg : count < 0
    · left
      constructor
      · simp only [viewDequeue, List.map_cons, hneg, if_true]
      · simp only [dequeue_unfold, hhead, hneg, if_true]
    · right
      obtain ⟨q1, segs1, e1, hsh1, hvals1, hhp1, hlen1, htp1, hls1⟩ :=
        dequeueLoop_view ((b, w) :: rest) q.heap.length q count.toNat [] hs
          (linked_length_le hs.1)
      refine ⟨(viewDeq (((b, w) :: rest).map Prod.snd) q.hp count.toNat).1,
        { vals := (viewDeq (((b, w) :: rest).map Prod.snd) q.hp count.toNat).2.1,
          hp := (viewDeq (((b, w) :: rest).map Prod.snd) q.hp count.toNat).2.2,
          tp := q.tp,
          len := q.len -
            (((viewDeq (((b, w) :: rest).map Prod.snd) q.hp count.toNat).1.length : Nat) : Int),
          lss := alss }, q1, ?_, ?_, ?_⟩
      · simp only [viewDequeue, List.map_cons, hneg, if_false]
      · simp only [dequeue_unfold, hhead, hneg, if_false, e1, List.nil_append]
      · exact ⟨segs1, hsh1, hvals1, hhp1, htp1, hlen1, fun _ => by rw [hls1, hlss1]⟩

/-! ## Pieces of a list -/

theorem chunksAux_nil (n fuel : Nat) : chunksAux n fuel ([] : List T) = [] := by
  cases fuel <;> rfl

theorem chunksAux_succ (n fuel : Nat) {l : List T} (hne : l ≠ []) :
    chunksAux n (fuel + 1) l = l.take n :: chunksAux n fuel (l.drop n) := by
  cases l with
  | nil => exact absurd rfl hne
  | cons x l => rfl

theorem chunksAux_fuel {n : Nat} (hn : 0 < n) : ∀ (f1 f2 : Nat) (l : List T),
    l.length ≤ f1 → l.length ≤ f2 → chunksAux n f1 l = chunksAux n f2 l := by
  intro f1
  induction f1 with
  | zero =>
    intro f2 l h1 _
    have : l = [] := List.length_eq_zero.1 (by omega)
    subst this
    rw [chunksAux_nil, chunksAux_nil]
  | succ f1 ih =>
    intro f2 l h1 h2
    cases l with
    | nil => rw [chunksAux_nil, chunksAux_nil]
    | cons x l =>
      cases f2 with
      | zero => simp at h2
      | succ f2 =>
        rw [chunksAux_succ n f1 (by simp), chunksAux_succ n f2 (by simp)]
        congr 1
        apply ih
        · rw [List.length_drop]; simp only [List.length_cons] at h1 ⊢; omega
        · rw [List.length_drop]; simp only [List.length_cons] at h2 ⊢; omega

theorem chunksAux_eq_chunks {n : Nat} (hn : 0 < n) (fuel : Nat) (l : List T)
    (h : l.length ≤ fuel) : chunksAux n fuel l = chunks n l :=
  chunksAux_fuel hn fuel l.length l h (Nat.le_refl _)

theorem chunksAux_ne_nil {n : Nat} (hn : 0 < n) : ∀ (fuel : Nat) (l : List T),
    ∀ c ∈ chunksAux n fuel l, c ≠ [] := by
  intro fuel
  induction fuel with
  | zero => intro l c hc; simp [chunksAux] at hc
  | succ fuel ih =>
    intro l c hc
    cases l with
    | nil => simp [chunksAux] at hc
    | cons x l =>
      rw [chunksAux_succ n fuel (by simp)] at hc
      rcases List.mem_cons.1 hc with rfl | hc
      · intro hnil
        have : ((x :: l).take n).length = 0 := by rw [hnil]; rfl
        rw [List.length_take] at this
        simp only [List.length_cons] at this
        omega
      · exact ih _ c hc

theorem chunks_length {n : Nat} (hn : 0 < n) : ∀ (fuel : Nat) (l : List T),
    l.length ≤ fuel → (chunksAux n fuel l).length = (l.length + (n - 1)) / n := by
  intro fuel
  induction fuel with
  | zero =>
    intro l h
    have : l = [] := List.length_eq_zero.1 (by omega)
    subst this
    simp only [chunksAux, List.length_nil, Nat.zero_add]
    exact (Nat.div_eq_of_lt (by omega)).symm
  | succ fuel ih =>
    intro l h
    cases l with
    | nil =>
      rw [chunksAux_nil]
      simp only [List.length_nil, Nat.zero_add]
      exact (Nat.div_eq_of_lt (by omega)).symm
    | cons x l =>
      rw [chunksAux_succ n fuel (by simp), List.length_cons,
        ih _ (by rw [List.length_drop]; simp only [List.length_cons] at h ⊢; omega),
        List.length_drop]
      simp only [List.length_cons]
      by_cases hle : l.length + 1 ≤ n
      · have h1 : l.length + 1 - n = 0 := by omega
        rw [h1, Nat.zero_add, Nat.div_eq_of_lt (by omega)]
        have h2 : (l.length + 1 + (n - 1)) / n = 1 := by
          apply Nat.div_eq_of_lt_le <;> omega
        rw [h2]
      · have h1 : l.length + 1 + (n - 1) = (l.length + 1 - n + (n - 1)) + n := by omega
        rw [h1, Nat.add_div_right _ hn]

/-! ## The queue refines its view: `Enqueue` -/

theorem enqueueLoop_view (v : List T) : ∀ (fuel : Nat) (q : Queue T)
    (segs : List (Nat × List T)) (vEnd : Nat), Linked q segs → segs ≠ [] →
    vEnd ≤ v.length → v.length - vEnd ≤ fuel →
    ∃ q1 extra, enqueueLoop v v.length fuel q vEnd (v.length - vEnd) = some q1 ∧
      Linked q1 (segs ++ extra) ∧
      extra.map Prod.snd = chunksAux maxInternalSliceSize fuel (v.drop vEnd) ∧
      q1.hp = q.hp ∧ q1.len = q.len ∧
      q1.tp = (match (chunksAux maxInternalSliceSize fuel (v.drop vEnd)).getLast? with
        | none => q.tp
        | some c => c.length) ∧
      q1.lastSliceSize =
        (match (chunksAux maxInternalSliceSize fuel (v.drop vEnd)).getLast? with
        | none => q.lastSliceSize
        | some _ => maxInternalSliceSize) := by
  intro fuel
  induction fuel with
  | zero =>
    intro q segs vEnd hl _ hle hfuel
    have h0 : v.length - vEnd = 0 := by omega
    refine ⟨q, [], ?_, by simpa using hl, by simp [chunksAux], rfl, rfl, by simp [chunksAux],
      by simp [chunksAux]⟩
    simp [enqueueLoop, h0]
  | succ fuel ih =>
    intro q segs vEnd hl hne hle hfuel
    by_cases hrem : v.length - vEnd > 0
    · rcases snoc_cases segs with rfl | ⟨init, t, tv, rfl⟩
      · exact absurd rfl hne
      · have hl0 : Linked ({ q with tp := 0 } : Queue T) (init ++ [(t, tv)]) :=
          linked_congr hl rfl rfl rfl
        obtain ⟨e1, l1⟩ := linked_linkNewTail hl0
        have l1b : Linked (linkedState ({ q with tp := 0 } : Queue T) t tv)
            ((init ++ [(t, tv)]) ++ [(q.heap.length, [])]) := by simpa using l1
        obtain ⟨vEnd1, hvEnd1⟩ : ∃ e, e = (if v.length - vEnd > maxInternalSliceSize
            then vEnd + maxInternalSliceSize else vEnd + (v.length - vEnd)) := ⟨_, rfl⟩
        have hb : vEnd < vEnd1 ∧ vEnd1 ≤ v.length := by
          have := maxInternalSliceSize_pos
          rw [hvEnd1]; split <;> omega
        have hsl : slice v vEnd vEnd1 = _ := slice_eq (Nat.le_of_lt hb.1) hb.2
        have hDne : v.drop vEnd ≠ [] := by
          apply List.ne_nil_of_length_pos
          rw [List.length_drop]; exact hrem
        -- the slice copied in this iteration is the next piece
        have hxs : (v.take vEnd1).drop vEnd = (v.drop vEnd).take maxInternalSliceSize := by
          rw [List.drop_take]
          by_cases hbig : v.length - vEnd > maxInternalSliceSize
          · rw [hvEnd1, if_pos hbig]
            congr 1; omega
          · rw [hvEnd1, if_neg hbig]
            rw [List.take_of_length_le (by rw [List.length_drop]; omega),
              List.take_of_length_le (by rw [List.length_drop]; omega)]
        have hrest : (v.drop vEnd).drop maxInternalSliceSize = v.drop vEnd1 := by
          rw [List.drop_drop]
          by_cases hbig : v.length - vEnd > maxInternalSliceSize
          · rw [hvEnd1, if_pos hbig]
          · rw [hvEnd1, if_neg hbig]
            rw [List.drop_eq_nil_of_le (by omega), List.drop_eq_nil_of_le (by omega)]
        obtain ⟨e2, l2⟩ := linked_appendTailV l1b ((v.take vEnd1).drop vEnd)
        have l2c : Linked
            ({ (linkedState ({ q with tp := 0 } : Queue T) t tv) with
              heap := (linkedState ({ q with tp := 0 } : Queue T) t tv).heap.set q.heap.length
                { v := [] ++ (v.take vEnd1).drop vEnd, n := none },
              tp := (linkedState ({ q with tp := 0 } : Queue T) t tv).tp + (vEnd1 - vEnd) } :
              Queue T)
            ((init ++ [(t, tv)]) ++ [(q.heap.length, [] ++ (v.take vEnd1).drop vEnd)]) :=
          linked_congr l2 rfl rfl rfl
        obtain ⟨q1, extra, e3, l3, hvals, hhp, hlen, htp, hlss⟩ :=
          ih _ _ vEnd1 l2c (by simp) hb.2 (by omega)
        have hxlen : ((v.drop vEnd).take maxInternalSliceSize).length = vEnd1 - vEnd := by
          rw [← hxs, List.length_drop, List.length_take]; omega
        rw [chunksAux_succ _ _ hDne, hrest]
        refine ⟨q1, (q.heap.length, [] ++ (v.take vEnd1).drop vEnd) :: extra, ?_, ?_, ?_,
          hhp, hlen, ?_, ?_⟩
        · rw [enqueueLoop, if_pos hrem]
          simp only [e1, ← hvEnd1, appendToTail, hsl, e2]
          exact e3
        · simpa using l3
        · simp only [List.map_cons, List.nil_append, hvals, hxs]
        · rw [htp, List.getLast?_cons]
          cases (chunksAux maxInternalSliceSize fuel (v.drop vEnd1)).getLast? with
          | none => simp [linkedState, hxlen]
          | some c => simp
        · rw [hlss, List.getLast?_cons]
          cases (chunksAux maxInternalSliceSize fuel (v.drop vEnd1)).getLast? with
          | none => simp [linkedState]
          | some c => simp
    · have h0 : v.length - vEnd = 0 := by omega
      have hnil : v.drop vEnd = [] := List.drop_eq_nil_of_le (by omega)
      refine ⟨q, [], ?_, by simpa using hl, by simp [hnil, chunksAux_nil], rfl, rfl,
        by simp [hnil, chunksAux_nil], by simp [hnil, chunksAux_nil]⟩
      simp [enqueueLoop, h0]

theorem enqueue_eq_rest (q : Queue T) (v : List T) :
    Enqueue q v = enqueueRest (enqueueFirst q v.length).1 v (enqueueFirst q v.length).2 := rfl

theorem enqueueRest_view {qa : Queue T} {init : List (Nat × List T)} {t : Nat} {tv : List T}
    (hl : Linked qa (init ++ [(t, tv)])) (hok : segsOK qa.hp (init ++ [(t, tv)]))
    (v : List T) {vEnd : Nat} (hle : vEnd ≤ v.length) :
    ∃ q1 extra, enqueueRest qa v vEnd = some q1 ∧
      Shape q1 ((init ++ [(t, tv ++ v.take vEnd)]) ++ extra) ∧
      extra.map Prod.snd = chunks maxInternalSliceSize (v.drop vEnd) ∧
      q1.hp = qa.hp ∧ q1.len = qa.len + (v.length : Int) ∧
      q1.tp = (match (chunks maxInternalSliceSize (v.drop vEnd)).getLast? with
        | none => qa.tp + vEnd
        | some c => c.length) ∧
      q1.lastSliceSize = (match (chunks maxInternalSliceSize (v.drop vEnd)).getLast? with
        | none => qa.lastSliceSize
        | some _ => maxInternalSliceSize) := by
  have hB : ∃ qb, (if 0 ≠ vEnd then appendToTail qa v 0 vEnd v.length
        else some (qa, v.length)) = some (qb, v.length - vEnd) ∧
      Linked qb (init ++ [(t, tv ++ v.take vEnd)]) ∧ qb.hp = qa.hp ∧ qb.len = qa.len ∧
      qb.tp = qa.tp + vEnd ∧ qb.lastSliceSize = qa.lastSliceSize := by
    by_cases h0 : 0 ≠ vEnd
    · obtain ⟨e2, l2⟩ := linked_appendTailV hl (v.take vEnd)
      have hsl : slice v 0 vEnd = some (v.take vEnd) := by
        rw [slice_eq (Nat.zero_le _) hle]; rfl
      refine ⟨{ qa with heap := qa.heap.set t { v := tv ++ v.take vEnd, n := none },
                        tp := qa.tp + (vEnd - 0) }, ?_, linked_congr l2 rfl rfl rfl, rfl, rfl,
        rfl, rfl⟩
      rw [if_pos h0]
      simp only [appendToTail, hsl, e2]
    · have hz : vEnd = 0 := by omega
      subst hz
      refine ⟨qa, by simp, by simpa using hl, rfl, rfl, rfl, rfl⟩
  obtain ⟨qb, eB, lB, hhpB, hlenB, htpB, hlssB⟩ := hB
  obtain ⟨q1, extra, e3, l3, hvals, hhp3, hlen3, htp3, hlss3⟩ :=
    enqueueLoop_view v v.length qb _ vEnd lB (by simp) hle (by omega)
  have hch : chunksAux maxInternalSliceSize v.length (v.drop vEnd) =
      chunks maxInternalSliceSize (v.drop vEnd) :=
    chunksAux_eq_chunks maxInternalSliceSize_pos _ _ (by rw [List.length_drop]; omega)
  rw [hch] at hvals htp3 hlss3
  have hne : init ++ [(t, tv ++ v.take vEnd)] ≠ [] := by simp
  have hex : ∀ s ∈ extra, s.2 ≠ [] := by
    intro s hs
    have hmem : s.2 ∈ extra.map Prod.snd := List.mem_map.2 ⟨s, hs, rfl⟩
    rw [hvals] at hmem
    exact chunksAux_ne_nil maxInternalSliceSize_pos _ _ _ hmem
  have hhp1 : q1.hp = qa.hp := by rw [hhp3, hhpB]
  refine ⟨{ q1 with len := q1.len + (v.length : Int) }, extra, ?_,
    ⟨linked_congr l3 rfl rfl rfl, ?_⟩, hvals, hhp1, ?_, ?_, ?_⟩
  · simp only [enqueueRest, eB, e3]
  · show segsOK q1.hp _
    rw [hhp1]
    exact segsOK_append hne (segsOK_snoc_append hok _) hex
  · show q1.len + (v.length : Int) = _
    rw [hlen3, hlenB]
  · show q1.tp = _
    rw [htp3, htpB]
  · show q1.lastSliceSize = _
    rw [hlss3, hlssB]

theorem viewEnqueue_nil {a : View T} (h : a.vals = []) (v : List T) :
    viewEnqueue a v =
      { vals := [[] ++ v.take (viewFirstEnd a v.length)] ++
          chunks maxInternalSliceSize (v.drop (viewFirstEnd a v.length)),
        hp := a.hp,
        tp := (match (chunks maxInternalSliceSize
            (v.drop (viewFirstEnd a v.length))).getLast? with
          | none => a.tp + viewFirstEnd a v.length
          | some c => c.length),
        len := a.len + (v.length : Int),
        lss := (match (chunks maxInternalSliceSize
            (v.drop (viewFirstEnd a v.length))).getLast? with
          | none => maxFirstSliceSize
          | some _ => maxInternalSliceSize) } := by
  simp only [viewEnqueue, h]
  rfl

theorem viewEnqueue_snoc {a : View T} {ivals : List (List T)} {tv : List T}
    (h : a.vals = ivals ++ [tv]) (v : List T) :
    viewEnqueue a v =
      { vals := (ivals ++ [tv ++ v.take (viewFirstEnd a v.length)]) ++
          chunks maxInternalSliceSize (v.drop (viewFirstEnd a v.length)),
        hp := a.hp,
        tp := (match (chunks maxInternalSliceSize
            (v.drop (viewFirstEnd a v.length))).getLast? with
          | none => a.tp + viewFirstEnd a v.length
          | some c => c.length),
        len := a.len + (v.length : Int),
        lss := (match (chunks maxInternalSliceSize
            (v.drop (viewFirstEnd a v.length))).getLast? with
          | none => a.lss
          | some _ => maxInternalSliceSize) } := by
  cases ivals with
  | nil =>
    simp only [List.nil_append] at h
    simp only [viewEnqueue, h]
    rfl
  | cons w r =>
    simp only [List.cons_append] at h
    simp only [viewEnqueue, h]
    rw [← List.cons_append, appendLast_concat]

theorem refines_enqueue {q : Queue T} {a : View T} (h : Refines q a) (v : List T) :
    ∃ q1, Enqueue q v = some q1 ∧ Refines q1 (viewEnqueue a v) := by
  obtain ⟨segs, hs, hvals, hhp, htp, hlen, hlss⟩ := h
  obtain ⟨hl, hok⟩ := hs
  rcases snoc_cases segs with rfl | ⟨init, t, tv, rfl⟩
  · have hhead := linked_head_nil hl
    have hq0 : q.hp = 0 := hok
    have hvnil : a.vals = [] := by rw [← hvals]; rfl
    have h1 : (enqueueFirst q v.length).1 = newHead q := by
      simp only [enqueueFirst, hhead]; split <;> rfl
    have h2 : (enqueueFirst q v.length).2 = viewFirstEnd a v.length := by
      have hl16 : (newHead q).lastSliceSize = maxFirstSliceSize := rfl
      simp only [enqueueFirst, hhead, viewFirstEnd, hvnil, hl16]
      by_cases hc : v.length > maxFirstSliceSize
      · rw [if_pos hc, if_pos hc]
      · rw [if_neg hc, if_neg hc]
    have h3 : viewFirstEnd a v.length ≤ v.length := by
      simp only [viewFirstEnd, hvnil]; split <;> omega
    have hnh : Linked (newHead q) ([] ++ [(q.heap.length, [])]) := linked_newHead q
    have hok1 : segsOK (newHead q).hp ([] ++ [(q.heap.length, ([] : List T))]) :=
      ⟨Or.inr ⟨rfl, hq0⟩, by simp⟩
    obtain ⟨q1, extra, e, hsh, hex, hhp1, hlen1, htp1, hlss1⟩ :=
      enqueueRest_view hnh hok1 v h3
    refine ⟨q1, by rw [enqueue_eq_rest, h1, h2]; exact e, _, hsh, ?_, ?_, ?_, ?_, ?_⟩
    · rw [viewEnqueue_nil hvnil]
      simp only [List.map_append, hex]
      rfl
    · rw [viewEnqueue_nil hvnil, hhp1, ← hhp]; rfl
    · rw [viewEnqueue_nil hvnil, htp1, ← htp]; rfl
    · rw [viewEnqueue_nil hvnil, hlen1, ← hlen]; rfl
    · intro _
      rw [viewEnqueue_nil hvnil, hlss1]; rfl
  · obtain ⟨b, hhead⟩ := linked_head_snoc hl
    have hvs : a.vals = init.map Prod.snd ++ [tv] := by rw [← hvals, map_snd_snoc]
    have hlssq : q.lastSliceSize = a.lss := hlss (by rw [hvs]; simp)
    have h1 : (enqueueFirst q v.length).1 = q := by
      simp only [enqueueFirst, hhead]; split
      · split <;> rfl
      · rfl
    have h2 : (enqueueFirst q v.length).2 = viewFirstEnd a v.length := by
      have hcons : ∃ w r, a.vals = w :: r := by
        rw [hvs]; cases init.map Prod.snd with
        | nil => exact ⟨_, _, rfl⟩
        | cons w r => exact ⟨_, _, rfl⟩
      obtain ⟨w, r, hwr⟩ := hcons
      simp only [enqueueFirst, hhead, viewFirstEnd, hwr, htp, hlssq]
      split
      · split <;> rfl
      · rfl
    have h3 : viewFirstEnd a v.length ≤ v.length := by
      rw [← h2]
      simp only [enqueueFirst, hhead]; split
      · split
        · rename_i hh; exact Nat.le_of_lt hh
        · exact Nat.le_refl _
      · exact Nat.zero_le _
    obtain ⟨q1, extra, e, hsh, hex, hhp1, hlen1, htp1, hlss1⟩ := enqueueRest_view hl hok v h3
    refine ⟨q1, by rw [enqueue_eq_rest, h1, h2]; exact e, _, hsh, ?_, ?_, ?_, ?_, ?_⟩
    · rw [viewEnqueue_snoc hvs]
      simp only [List.map_append, hex]
      rfl
    · rw [viewEnqueue_snoc hvs, hhp1, ← hhp]
    · rw [viewEnqueue_snoc hvs, htp1, ← htp]
    · rw [viewEnqueue_snoc hvs, hlen1, ← hlen]
    · intro _
      rw [viewEnqueue_snoc hvs, hlss1, hlssq]

/-! ## Results of call sequences are decided by the view -/

theorem refines_call {q : Queue T} {a : View T} (h : Refines q a) (c : Call T) :
    (viewCall a c = none ∧ call q c = none) ∨
      ∃ r a1 q1, viewCall a c = some (r, a1) ∧ call q c = some (r, q1) ∧ Refines q1 a1 := by
  cases c with
  | push x =>
    obtain ⟨q1, e, h1⟩ := refines_push h x
    exact Or.inr ⟨Result.done, _, q1, rfl, by simp [call, e], h1⟩
  | enqueue vs =>
    obtain ⟨q1, e, h1⟩ := refines_enqueue h vs
    exact Or.inr ⟨Result.done, _, q1, rfl, by simp [call, e], h1⟩
  | pop =>
    rcases refines_pop h with ⟨e1, e2⟩ | ⟨r, a1, q1, e1, e2, h1⟩
    · exact Or.inl ⟨by simp [viewCall, e1], by simp [call, e2]⟩
    · exact Or.inr ⟨Result.popped r, a1, q1, by simp [viewCall, e1], by simp [call, e2], h1⟩
  | dequeue count =>
    rcases refines_dequeue h count with ⟨e1, e2⟩ | ⟨r, a1, q1, e1, e2, h1⟩
    · exact Or.inl ⟨by simp [viewCall, e1], by simp [call, e2]⟩
    · exact Or.inr ⟨Result.dequeued r, a1, q1, by simp [viewCall, e1], by simp [call, e2], h1⟩
  | front =>
    have e := refines_front h
    cases hf : viewFront a with
    | none => exact Or.inl ⟨by simp [viewCall, hf], by simp [call, e, hf]⟩
    | some r =>
      exact Or.inr ⟨Result.front r, a, q, by simp [viewCall, hf], by simp [call, e, hf], h⟩
  | length =>
    exact Or.inr ⟨Result.length a.len, a, q, rfl, by simp [call, refines_length h], h⟩
  | noOfNodes =>
    exact Or.inr ⟨Result.nodes a.vals.length, a, q, rfl, by simp [call, refines_nodes h], h⟩

theorem results_eq_view : ∀ (cs : List (Call T)) (q : Queue T) (a : View T),
    Refines q a → results q cs = viewResults a cs := by
  intro cs
  induction cs with
  | nil => intro q a _; rfl
  | cons c cs ih =>
    intro q a h
    rcases refines_call h c with ⟨e1, e2⟩ | ⟨r, a1, q1, e1, e2, h1⟩
    · simp only [results, viewResults, e1, e2]
    · simp only [results, viewResults, e1, e2]
      rw [ih q1 a1 h1]

/-! ## Layout of the chain after `Enqueue` on a new queue -/

theorem refines_chain {q : Queue T} {a : View T} (h : Refines q a) :
    (chain q).map Prod.snd = a.vals := by
  obtain ⟨segs, hs, hvals, _⟩ := h
  rw [chain_eq_of_linked hs.1, hvals]

theorem refines_newQueue :
    Refines (NewQueue : Queue T) { vals := [], hp := 0, tp := 0, len := 0, lss := 0 } :=
  refines_init _

theorem enqueue_new_view (vs : List T) (hn : 16 < vs.length) :
    ∃ q1, Enqueue NewQueue vs = some q1 ∧
      (chain q1).map Prod.snd = vs.take 16 :: chunks 128 (vs.drop 16) ∧
      Length q1 = (vs.length : Int) ∧
      NoOfNodes q1 = some (1 + (vs.length - 16 + 127) / 128) := by
  obtain ⟨q1, e, h1⟩ := refines_enqueue (refines_newQueue (T := T)) vs
  have hfe : viewFirstEnd ({ vals := [], hp := 0, tp := 0, len := 0, lss := 0 } : View T)
      vs.length = 16 := by
    have : vs.length > maxFirstSliceSize := hn
    simp only [viewFirstEnd, this, if_true]; rfl
  have hv : (viewEnqueue ({ vals := [], hp := 0, tp := 0, len := 0, lss := 0 } : View T) vs).vals
      = vs.take 16 :: chunks 128 (vs.drop 16) := by
    rw [viewEnqueue_nil rfl, hfe]; rfl
  have hl : (viewEnqueue ({ vals := [], hp := 0, tp := 0, len := 0, lss := 0 } : View T) vs).len
      = (vs.length : Int) := by
    rw [viewEnqueue_nil rfl]; simp
  refine ⟨q1, e, ?_, ?_, ?_⟩
  · rw [refines_chain h1, hv]
  · rw [refines_length h1, hl]
  · rw [refines_nodes h1, hv, List.length_cons]
    have := chunks_length (n := 128) (by decide) (vs.drop 16).length (vs.drop 16) (Nat.le_refl _)
    rw [chunks, this, List.length_drop]
    congr 1
    omega

/-! ## Layout of the chain after calls of `Push` on a new queue -/

theorem viewPush_full {a : View T} {tv : List T} (hgl : a.vals.getLast? = some tv)
    (hfull : tv.length ≥ a.lss) (x : T) :
    viewPush a x =
      { a with vals := a.vals ++ [[x]], len := a.len + 1, lss := maxInternalSliceSize } := by
  simp only [viewPush, hgl, hfull, if_true]

theorem viewPush_room {a : View T} {tv : List T} (hgl : a.vals.getLast? = some tv)
    (hroom : ¬ tv.length ≥ a.lss) (x : T) :
    viewPush a x = { a with vals := appendLast a.vals [x], len := a.len + 1 } := by
  simp only [viewPush, hgl, hroom, if_false]

theorem viewPush_layout {a : View T} {m : Nat} (h : PushedLayout a.vals a.lss m) (x : T) :
    PushedLayout (viewPush a x).vals (viewPush a x).lss (m + 1) := by
  rcases h with ⟨w, hv, hw, hm, hlss⟩ | ⟨w, mid, l, hv, hw, hmid, hl1, hl2, hm, hlss⟩
  · have hgl : a.vals.getLast? = some w := by rw [hv]; rfl
    by_cases hfull : w.length ≥ a.lss
    · rw [viewPush_full hgl hfull]
      right
      refine ⟨w, [], [x], ?_, ?_, by simp, by simp, by simp, ?_, rfl⟩
      · show a.vals ++ [[x]] = _
        rw [hv]
      · rw [hlss] at hfull; omega
      · rw [hlss] at hfull; simp; omega
    · rw [viewPush_room hgl hfull]
      left
      refine ⟨w ++ [x], ?_, by simp [hw], ?_, hlss⟩
      · show appendLast a.vals [x] = _
        rw [hv]
        exact appendLast_concat [] w [x]
      · rw [hlss] at hfull; omega
  · have hgl : a.vals.getLast? = some l := by rw [hv, List.getLast?_concat]
    right
    by_cases hfull : l.length ≥ a.lss
    · rw [viewPush_full hgl hfull]
      refine ⟨w, mid ++ [l], [x], ?_, hw, ?_, by simp, by simp, ?_, rfl⟩
      · show a.vals ++ [[x]] = _
        rw [hv]; simp
      · intro c hc
        rcases List.mem_append.1 hc with hc | hc
        · exact hmid c hc
        · simp only [List.mem_singleton] at hc
          rw [hc]; rw [hlss] at hfull; omega
      · rw [hlss] at hfull
        simp only [List.length_append, List.length_singleton]
        omega
    · rw [viewPush_room hgl hfull]
      refine ⟨w, mid, l ++ [x], ?_, hw, hmid, by simp, ?_, ?_, hlss⟩
      · show appendLast a.vals [x] = _
        rw [hv]
        exact appendLast_concat (w :: mid) l [x]
      · rw [hlss] at hfull
        simp only [List.length_append, List.length_singleton]
        omega
      · simp only [List.length_append, List.length_singleton]
        omega

theorem pushAll_layout : ∀ (xs : List T) (q : Queue T) (a : View T) (m : Nat),
    Refines q a → PushedLayout a.vals a.lss m →
    ∃ q1 a1, pushAll q xs = some q1 ∧ Refines q1 a1 ∧
      PushedLayout a1.vals a1.lss (m + xs.length) := by
  intro xs
  induction xs with
  | nil => intro q a m h hl; exact ⟨q, a, rfl, h, hl⟩
  | cons x xs ih =>
    intro q a m h hl
    obtain ⟨q1, e1, h1⟩ := refines_push h x
    obtain ⟨q2, a2, e2, h2, hl2⟩ := ih q1 _ (m + 1) h1 (viewPush_layout hl x)
    refine ⟨q2, a2, ?_, h2, ?_⟩
    · simp only [pushAll, e1, e2]
    · have : m + (x :: xs).length = m + 1 + xs.length := by
        simp only [List.length_cons]; omega
      rw [this]; exact hl2

theorem pushedLayout_sizes {vals : List (List T)} {lss m : Nat}
    (h : PushedLayout vals lss m) : vals.map List.length = pushNodeSizes m := by
  rcases h with ⟨w, hv, hw, hm, _⟩ | ⟨w, mid, l, hv, hw, hmid, hl1, hl2, hm, _⟩
  · rw [hv, pushNodeSizes, if_pos hm]
    simp [hw]
  · have hnot : ¬ m ≤ 16 := by omega
    have hrep : mid.map List.length = List.replicate mid.length 128 := by
      rw [List.eq_replicate_iff]
      refine ⟨by simp, ?_⟩
      intro b hb
      obtain ⟨c, hc, rfl⟩ := List.mem_map.1 hb
      exact hmid c hc
    have hk : (m - 17) / 128 = mid.length := by omega
    have hr : (m - 17) % 128 + 1 = l.length := by omega
    rw [hv, pushNodeSizes, if_neg hnot, hk, hr]
    simp [hw, hrep]

theorem push_new_layout (x : T) (xs : List T) :
    ∃ q1, pushAll NewQueue (x :: xs) = some q1 ∧
      (chain q1).map (fun s => s.2.length) = pushNodeSizes (x :: xs).length ∧
      NoOfNodes q1 = some (pushNodeSizes (x :: xs).length).length := by
  obtain ⟨q0, e0, h0⟩ := refines_push (refines_newQueue (T := T)) x
  have hl0 : PushedLayout
      (viewPush ({ vals := [], hp := 0, tp := 0, len := 0, lss := 0 } : View T) x).vals
      (viewPush ({ vals := [], hp := 0, tp := 0, len := 0, lss := 0 } : View T) x).lss 1 :=
    Or.inl ⟨[x], rfl, rfl, by decide, rfl⟩
  obtain ⟨q1, a1, e1, h1, hl1⟩ := pushAll_layout xs q0 _ 1 h0 hl0
  have hsz := pushedLayout_sizes hl1
  have hm : 1 + xs.length = (x :: xs).length := by simp only [List.length_cons]; omega
  rw [hm] at hsz
  refine ⟨q1, by simp only [pushAll, e0, e1], ?_, ?_⟩
  · rw [← hsz, ← refines_chain h1, List.map_map]; rfl
  · rw [refines_nodes h1, ← hsz, List.length_map]

theorem pushNodeSizes_head (N : Nat) : (pushNodeSizes N).head? = some (min N 16) := by
  by_cases h : N ≤ 16
  · rw [pushNodeSizes, if_pos h, Nat.min_eq_left h]; rfl
  · rw [pushNodeSizes, if_neg h, Nat.min_eq_right (by omega)]; rfl

/-! ## Node counts and the agreement of `Pop` with `Dequeue(1)` while the head
node holds a live element -/

theorem refines_self {q : Queue T} {segs : List (Nat × List T)} (hs : Shape q segs) :
    Refines q { vals := segs.map Prod.snd, hp := q.hp, tp := q.tp, len := q.len,
                lss := q.lastSliceSize } :=
  ⟨segs, hs, rfl, rfl, rfl, rfl, fun _ => rfl⟩

theorem pop_node_count {q : Queue T} {a : Nat} {w : List T} {rest : List (Nat × List T)}
    (h : Abs q ((a, w) :: rest)) (hlt : q.hp < w.length) :
    NoOfNodes q = some (rest.length + 1) ∧
      (Pop q).map (fun r => NoOfNodes r.2) =
        some (some (if q.hp + 1 = w.length then rest.length else rest.length + 1)) := by
  obtain ⟨q1, segs1, e, h1, _, _, hlast, hmore⟩ := pop_abs h hlt
  refine ⟨by rw [noOfNodes_of_linked h.1.1]; rfl, ?_⟩
  rw [e, Option.map_some', noOfNodes_of_linked h1.1.1]
  by_cases hend : q.hp + 1 = w.length
  · rw [if_pos hend, (hlast hend).1]
  · rw [if_neg hend, (hmore (by omega)).1]; rfl

theorem viewDeq_nodes : ∀ (vals : List (List T)) (hp k : Nat),
    (∀ w rest, vals = w :: rest → hp < w.length ∧ ∀ c ∈ rest, c ≠ []) →
    (viewDeq vals hp k).2.1.length + drainedNodes (liveCounts hp vals) k = vals.length := by
  intro vals
  induction vals with
  | nil => intro hp k _; rfl
  | cons w rest ih =>
    intro hp k hok
    obtain ⟨hlt, hrest⟩ := hok w rest rfl
    by_cases h0 : k = 0
    · have hk : k < w.length - hp := by omega
      simp only [viewDeq, h0, if_true, liveCounts, drainedNodes]
      rw [if_pos (by omega)]; rfl
    · by_cases hk : k < w.length - hp
      · simp only [viewDeq, h0, hk, if_true, if_false, liveCounts, drainedNodes]
        rfl
      · have hrec := ih 0 (k - (w.length - hp)) (by
          intro w1 r1 hr
          subst hr
          refine ⟨List.length_pos.2 (hrest w1 (by simp)), ?_⟩
          intro c hc
          exact hrest c (List.mem_cons_of_mem _ hc))
        have hlc : liveCounts 0 rest = rest.map List.length := by
          cases rest with
          | nil => rfl
          | cons w1 r1 => simp [liveCounts]
        rw [hlc] at hrec
        simp only [viewDeq, h0, hk, if_false, liveCounts, drainedNodes, List.length_cons]
        omega

theorem dequeue_node_count {q : Queue T} {segs : List (Nat × List T)} (hs : Shape q segs)
    (hh : headLive q.hp segs) (k : Nat) :
    NoOfNodes q = some segs.length ∧
      (Dequeue q (k : Int)).map (fun r => NoOfNodes r.2) =
        some (some (segs.length - drainedNodes (liveCounts q.hp (segs.map Prod.snd)) k)) := by
  refine ⟨noOfNodes_of_linked hs.1, ?_⟩
  have hnodes : (viewDeq (segs.map Prod.snd) q.hp k).2.1.length +
      drainedNodes (liveCounts q.hp (segs.map Prod.snd)) k = (segs.map Prod.snd).length := by
    apply viewDeq_nodes
    intro w rest hv
    cases segs with
    | nil => simp at hv
    | cons x r =>
      obtain ⟨b, u⟩ := x
      simp only [List.map_cons, List.cons.injEq] at hv
      obtain ⟨rfl, rfl⟩ := hv
      refine ⟨hh, ?_⟩
      intro c hc
      obtain ⟨s, hs1, rfl⟩ := List.mem_map.1 hc
      exact hs.2.2 s hs1
  rw [List.length_map] at hnodes
  rcases refines_dequeue (refines_self hs) (k : Int) with ⟨e1, _⟩ | ⟨r, a1, q1, e1, e2, h1⟩
  · cases segs with
    | nil => simp [viewDequeue] at e1
    | cons x r =>
      have hk : ¬ ((k : Int) < 0) := by omega
      simp [viewDequeue, hk] at e1
  · rw [e2, Option.map_some', refines_nodes h1]
    cases segs with
    | nil =>
      simp only [viewDequeue, List.map_nil, Option.some.injEq, Prod.mk.injEq] at e1
      rw [← e1.2]
      rfl
    | cons x r0 =>
      have hk : ¬ ((k : Int) < 0) := by omega
      simp only [viewDequeue, List.map_cons, hk, if_false, Int.toNat_ofNat, Option.some.injEq,
        Prod.mk.injEq] at e1
      rw [← e1.2]
      simp only [List.map_cons, List.length_cons] at hnodes ⊢
      congr 2
      omega

theorem pop_eq_dequeue_one {q : Queue T} {a : Nat} {w : List T} {rest : List (Nat × List T)}
    (hs : Shape q ((a, w) :: rest)) (hlt : q.hp < w.length) :
    ∃ q1, Pop q = some (some (w.get ⟨q.hp, hlt⟩), q1) ∧
      Dequeue q 1 = some ([w.get ⟨q.hp, hlt⟩], q1) := by
  obtain ⟨hl, hok⟩ := hs
  obtain ⟨nd, hhead, hnd, hv, hun⟩ := linked_unlink hl
  have hx : nd.v[q.hp]? = some (w.get ⟨q.hp, hlt⟩) := by
    rw [hv]; simp [List.getElem?_eq_getElem hlt]
  have hdrop : w.drop q.hp = w.get ⟨q.hp, hlt⟩ :: w.drop (q.hp + 1) :=
    List.drop_eq_getElem_cons hlt
  obtain ⟨f, hf⟩ : ∃ f, q.heap.length = f + 1 := by
    have := linked_length_le hl
    simp only [List.length_cons] at this
    exact ⟨q.heap.length - 1, by omega⟩
  have hcond : (1 : Nat) > 0 ∧ q.head ≠ none := ⟨by decide, by simp [hhead]⟩
  have hneg : ¬ ((1 : Int) < 0) := by decide
  have htn : (1 : Int).toNat = 1 := rfl
  by_cases hend : q.hp + 1 ≥ nd.v.length
  · have hlen1 : nd.v.length - q.hp = 1 := by rw [hv] at hend ⊢; omega
    have hnlt : ¬ (1 < nd.v.length - q.hp) := by omega
    have hsl : slice nd.v q.hp (q.hp + 1) = some [w.get ⟨q.hp, hlt⟩] := by
      rw [hv] at hlen1 ⊢
      rw [slice_eq (by omega) (by omega)]
      have h1 : q.hp + 1 = w.length := by omega
      rw [h1, List.take_length, hdrop, List.drop_eq_nil_of_le (by omega)]
    refine ⟨{ q with heap := q.heap.set a { nd with n := none }, head := nd.n, hp := 0,
                     len := q.len - 1 }, ?_, ?_⟩
    · simp only [Pop, hhead, hnd, hx, hend, if_true]
    · simp only [dequeue_unfold, hhead, hneg, if_false, htn, hf]
      rw [dequeueLoop, if_pos hcond]
      simp only [hhead, hnd, hlen1, lt_self_iff_false, if_false, hsl]
      rw [dequeueLoop_stop _ _ _ _ (by simp)]
      have h2 : q.hp + 1 - q.hp = 1 := by omega
      simp only [h2, Nat.cast_one, List.nil_append]
  · have hlt1 : 1 < nd.v.length - q.hp := by omega
    have hsl : slice nd.v q.hp (q.hp + 1) = some [w.get ⟨q.hp, hlt⟩] := by
      rw [hv] at hlt1 ⊢
      rw [slice_eq (by omega) (by omega), List.drop_take]
      have h1 : q.hp + 1 - q.hp = 1 := by omega
      rw [h1, hdrop]; rfl
    refine ⟨{ q with hp := q.hp + 1, len := q.len - 1 }, ?_, ?_⟩
    · simp only [Pop, hhead, hnd, hx, hend, if_false]
    · simp only [dequeue_unfold, hhead, hneg, if_false, htn, hf]
      rw [dequeueLoop, if_pos hcond]
      simp only [hhead, hnd, hlt1, if_true, hsl, Nat.cast_one, List.nil_append]

/-! ## Tallies along a call sequence with panics -/

theorem popPanics_nil {q : Queue T} (h : Linked q []) : popPanics q = false := by
  simp [popPanics, linked_head_nil h]

theorem popPanics_cons {q : Queue T} {a : Nat} {w : List T} {rest : List (Nat × List T)}
    (h : Linked q ((a, w) :: rest)) : popPanics q = decide (w.length ≤ q.hp) := by
  obtain ⟨hhead, nd, hnd, hv, _⟩ := h.rep
  simp [popPanics, hhead, hnd, hv]

/-- Where `popPanics` holds, `Pop` does not return. -/
theorem pop_of_popPanics {q : Queue T} (h : popPanics q = true) : Pop q = none := by
  cases hh : q.head with
  | none => simp [popPanics, hh] at h
  | some a =>
    cases hn : q.heap[a]? with
    | none => simp [Pop, hh, hn]
    | some nd =>
      simp only [popPanics, hh, hn, decide_eq_true_eq] at h
      have hv : nd.v[q.hp]? = none := List.getElem?_eq_none h
      simp [Pop, hh, hn, hv]

/-- Where `makePanics` holds, `Dequeue` does not return. -/
theorem dequeueIn_of_makePanics {maxCap : Nat} {q : Queue T} {count : Int}
    (h : makePanics maxCap q count = true) : DequeueIn maxCap q count = none := by
  cases hh : q.head with
  | none => simp [makePanics, hh] at h
  | some a =>
    simp only [makePanics, hh, Option.isSome_some, Bool.true_and, Bool.not_eq_true'] at h
    simp [DequeueIn, hh, h]

theorem makePanics_false {maxCap : Nat} {q : Queue T} {count : Int}
    (h : makePanics maxCap q count = false) : q.head = none ∨ count ≤ (maxCap : Int) := by
  cases hh : q.head with
  | none => exact Or.inl rfl
  | some a =>
    right
    simp only [makePanics, hh, Option.isSome_some, Bool.true_and, Bool.not_eq_false',
      makeAccepts, decide_eq_true_eq] at h
    exact h.2

theorem runRecovering_len (maxCap : Nat) : ∀ (ops : List (Op T)) (q0 : Queue T)
    (segs : List (Nat × List T)) (a0 r0 : Nat),
    Abs q0 segs → q0.len = (a0 : Int) - (r0 : Int) →
    ops.all (fun op => !op.isInit) = true →
    ∃ q a r, runRecovering maxCap q0 a0 r0 ops = some (q, a, r) ∧
      q.len = (a : Int) - (r : Int) := by
  intro ops
  induction ops with
  | nil =>
    intro q0 segs a0 r0 _ hlen _
    exact ⟨q0, a0, r0, rfl, hlen⟩
  | cons op ops ih =>
    intro q0 segs a0 r0 habs hlen hinit
    have hinit1 : ops.all (fun op => !op.isInit) = true := by
      simp only [List.all_cons, Bool.and_eq_true] at hinit; exact hinit.2
    have hl0 := habs.2
    cases op with
    | push v =>
      obtain ⟨q1, segs1, e, habs1, hlive, hhp, _⟩ := push_abs habs v
      simp only [runRecovering, e]
      refine ih q1 segs1 _ _ habs1 ?_ hinit1
      rw [habs1.2, hlive, List.length_append]
      push_cast
      rw [← hl0, hlen]; simp; ring
    | enqueue vs =>
      obtain ⟨q1, segs1, e, habs1, hlive, hhp⟩ := enqueue_abs habs vs
      simp only [runRecovering, e]
      refine ih q1 segs1 _ _ habs1 ?_ hinit1
      rw [habs1.2, hlive, List.length_append]
      push_cast
      rw [← hl0, hlen]; ring
    | pop =>
      cases segs with
      | nil =>
        simp only [runRecovering, popPanics_nil habs.1.1, pop_nil habs.1.1, Bool.false_eq_true,
          if_false]
        exact ih q0 [] _ _ habs hlen hinit1
      | cons x rest =>
        obtain ⟨b, w⟩ := x
        rcases habs.1.2.1 with hlt | ⟨hw, _⟩
        · obtain ⟨q1, segs1, e, habs1, hlive, _⟩ := pop_abs habs hlt
          have hp : popPanics q0 = false := by
            rw [popPanics_cons habs.1.1]; simp; omega
          simp only [runRecovering, hp, e, Bool.false_eq_true, if_false]
          refine ih q1 segs1 _ _ habs1 ?_ hinit1
          have h2 : ((live q0.hp ((b, w) :: rest)).length : Int) =
              ((live q1.hp segs1).length : Int) + 1 := by rw [hlive]; simp
          rw [habs1.2]
          push_cast
          rw [hl0, h2] at hlen
          omega
        · subst hw
          have hp : popPanics q0 = true := by
            rw [popPanics_cons habs.1.1]; simp
          simp only [runRecovering, hp, if_true]
          exact ih q0 _ _ _ habs hlen hinit1
    | dequeue k =>
      cases hm : makePanics maxCap q0 (k : Int) with
      | true =>
        simp only [runRecovering, hm, if_true]
        exact ih q0 _ _ _ habs hlen hinit1
      | false =>
        obtain ⟨q1, segs1, e, habs1, hlive, _⟩ := dequeue_abs habs k
        rw [← dequeueIn_eq maxCap q0 (k : Int) (makePanics_false hm)] at e
        simp only [runRecovering, hm, e, Bool.false_eq_true, if_false]
        refine ih q1 segs1 _ _ habs1 ?_ hinit1
        rw [habs1.2, hlive, List.length_drop, List.length_take]
        rw [hl0] at hlen
        omega
    | init =>
      simp [Op.isInit] at hinit

/-! ## Nil head and nil tail -/

/-- In every reachable state a nil head implies length 0, and a nil tail
implies a nil head. -/
theorem nil_head_and_tail (q : Queue T) (h : Reachable q) :
    (q.head = none → q.len = 0) ∧ (q.tail = none → q.head = none) := by
  obtain ⟨segs, habs⟩ := reachable_abs h
  constructor
  · intro hh
    have hnil := linked_nil_of_head_none habs.1.1 hh
    subst hnil
    exact habs.2
  · intro ht
    rcases snoc_cases segs with rfl | ⟨init, t, tv, rfl⟩
    · exact linked_head_nil habs.1.1
    · have := linked_snoc_tail habs.1.1
      rw [ht] at this; cases this

/-! ## The claims -/

/-- C1: pushing the values `vs` one by one on a new queue and then calling
`Pop` once more than there are values returns every pushed value with
found=true, in the order of the pushes, and found=false on the last call. -/
theorem push_then_pop_fifo (vs : List T) :
    ((pushAll NewQueue vs).bind (popN (vs.length + 1))).map Prod.fst =
      some (vs.map some ++ [none]) := by
  obtain ⟨q1, segs1, e1, h1, hl1, hh1⟩ := pushAll_abs vs NewQueue [] abs_newQueue trivial
  obtain ⟨q2, segs2, e2, _⟩ := popN_abs (vs.length + 1) q1 segs1 h1 hh1
  rw [e1, Option.some_bind, e2, hl1]
  simp [live, List.replicate_succ]

/-- C2: in every reachable state, `Enqueue(vs)` returns and leaves the live
contents equal to the previous live contents followed by `vs`. -/
theorem enqueue_appends_contents (q : Queue T) (h : Reachable q) (vs : List T) :
    (Enqueue q vs).map contents = some (contents q ++ vs) := by
  obtain ⟨segs, habs⟩ := reachable_abs h
  obtain ⟨q1, segs1, e, habs1, hlive, _⟩ := enqueue_abs habs vs
  rw [e, Option.map_some', contents_of_abs habs1, contents_of_abs habs, hlive]

/-- Witness for C2: the tail node of `twoPushed` was last filled by `Push`. -/
theorem enqueue_appends_contents_witness :
    Reachable twoPushed ∧
      (Enqueue twoPushed [3, 4, 5]).map contents = some (contents twoPushed ++ [3, 4, 5]) :=
  ⟨reachable_twoPushed, enqueue_appends_contents twoPushed reachable_twoPushed [3, 4, 5]⟩

/-- Counterexample to C3: after `Push(1)`, `Push(2)` the live contents are
`[1, 2]`; `Dequeue(1<<62)` asks `make` for a capacity of 2^62 elements, above
the 2^45 that fit, and panics at line 199, where the claim has it return
`[1, 2]`. -/
theorem dequeue_beyond_make_limit :
    Reachable twoPushed ∧ contents twoPushed = [1, 2] ∧
      DequeueIn maxCapInt64 twoPushed 4611686018427387904 = none :=
  ⟨reachable_twoPushed, rfl, rfl⟩

/-- C3, amended: in every reachable state with live contents `L`, for every
count `k` that `make` accepts as a capacity (`k ≤ maxCap`), and for every `k`
when the head is nil, `Dequeue(k)` returns the first `min k (len L)` elements
of `L` in order and leaves the live contents equal to `L` without them. -/
theorem dequeue_takes_prefix (maxCap : Nat) (q : Queue T) (h : Reachable q) (k : Nat)
    (hk : q.head = none ∨ k ≤ maxCap) :
    (DequeueIn maxCap q (k : Int)).map (fun r => (r.1, contents r.2)) =
      some ((contents q).take (min k (contents q).length), (contents q).drop k) := by
  obtain ⟨segs, habs⟩ := reachable_abs h
  obtain ⟨q1, segs1, e, habs1, hlive, _⟩ := dequeue_abs habs k
  have hk1 : q.head = none ∨ (k : Int) ≤ (maxCap : Int) := by
    rcases hk with hk | hk
    · exact Or.inl hk
    · exact Or.inr (by exact_mod_cast hk)
  rw [dequeueIn_eq maxCap q (k : Int) hk1, e, Option.map_some', contents_of_abs habs1,
    contents_of_abs habs, hlive]
  simp [List.take_eq_take]

/-- Witness for C3, amended: eighteen elements are removed across a node
boundary. -/
theorem dequeue_takes_prefix_witness :
    Reachable twentyQueued ∧ (twentyQueued.head = none ∨ 18 ≤ maxCapInt64) ∧
      (DequeueIn maxCapInt64 twentyQueued ((18 : Nat) : Int)).map
          (fun r => (r.1, contents r.2)) =
        some ((contents twentyQueued).take (min 18 (contents twentyQueued).length),
          (contents twentyQueued).drop 18) :=
  ⟨reachable_twentyQueued, by decide,
    dequeue_takes_prefix maxCapInt64 twentyQueued reachable_twentyQueued 18 (by decide)⟩

/-- C4: `Enqueue(vs)` on a new queue followed by `Dequeue(len vs)` returns
`vs`, and so do `len vs` calls of `Pop` after pushing the elements of `vs`
one by one on a new queue (each with found=true). -/
theorem bulk_equals_single (vs : List T) :
    ((Enqueue NewQueue vs).bind (fun q => Dequeue q (vs.length : Int))).map Prod.fst =
        some vs ∧
      ((pushAll NewQueue vs).bind (popN vs.length)).map Prod.fst = some (vs.map some) := by
  constructor
  · obtain ⟨q1, segs1, e1, h1, hl1, _⟩ := enqueue_abs abs_newQueue vs
    obtain ⟨q2, segs2, e2, _⟩ := dequeue_abs h1 vs.length
    rw [e1, Option.some_bind, e2, hl1]
    simp [live]
  · obtain ⟨q1, segs1, e1, h1, hl1, hh1⟩ := pushAll_abs vs NewQueue [] abs_newQueue trivial
    obtain ⟨q2, segs2, e2, _⟩ := popN_abs vs.length q1 segs1 h1 hh1
    rw [e1, Option.some_bind, e2, hl1]
    simp [live]

/-- C5: after any sequence of `Push`, `Enqueue`, `Pop` and `Dequeue(k)` calls
on a new queue, `Length()` is the number of elements pushed or enqueued minus
the number of elements popped (found=true) or dequeued.  Every call of the
sequence returns or panics before it writes a field (`Pop` at line 254,
`Dequeue` at line 199); a call that panicked has returned nothing and counts
for nothing. -/
theorem length_is_added_minus_removed (maxCap : Nat) (ops : List (Op T))
    (hinit : ops.all (fun op => !op.isInit) = true) :
    ∃ q a r, runRecovering maxCap NewQueue 0 0 ops = some (q, a, r) ∧
      Length q = (a : Int) - (r : Int) :=
  runRecovering_len maxCap ops NewQueue [] 0 0 abs_newQueue rfl hinit

/-- Witness for C5: nine calls, two of which panic; four elements are added
and three removed. -/
theorem length_is_added_minus_removed_witness :
    recoveringOps.all (fun op => !op.isInit) = true ∧
      runRecovering maxCapInt64 NewQueue 0 0 recoveringOps = some (recoveringFinal, 4, 3) ∧
      Length recoveringFinal = ((4 : Nat) : Int) - ((3 : Nat) : Int) := by
  obtain ⟨q, a, r, e, h⟩ := length_is_added_minus_removed maxCapInt64 recoveringOps rfl
  have e1 : runRecovering maxCapInt64 NewQueue 0 0 recoveringOps =
      some (recoveringFinal, 4, 3) := rfl
  rw [e1] at e
  simp only [Option.some.injEq, Prod.mk.injEq] at e
  obtain ⟨rfl, rfl, rfl⟩ := e
  exact ⟨rfl, e1, h⟩

/-- C6: the calls `Enqueue(0..15)`, `Dequeue(16)`, `Enqueue([])`, `Enqueue([7])`
on a new queue all return and lead to a state whose live contents are `[7]`
and whose length is 1, in which `Pop` indexes the empty head slice out of
range and panics instead of returning `(7, true)`. -/
theorem pop_panics_behind_empty_head :
    runOps NewQueue staleHeadOps = some staleHeadQueue ∧
      contents staleHeadQueue = [7] ∧ Length staleHeadQueue = 1 ∧
      Pop staleHeadQueue = none := by
  refine ⟨rfl, rfl, rfl, rfl⟩

/-- C7: after `Enqueue([])` on a new queue the length is 0, and both `Pop` and
`Front` index the empty head slice out of range and panic instead of
returning found=false. -/
theorem pop_front_panic_after_empty_enqueue :
    runOps NewQueue [Op.enqueue []] = some emptyHeadQueue ∧
      Length emptyHeadQueue = 0 ∧
      Pop emptyHeadQueue = none ∧ Front emptyHeadQueue = none := by
  refine ⟨rfl, rfl, rfl, rfl⟩

/-- Counterexample to C9: after `Push(1)` on a new queue `Length()` is 1 and
the count `1<<62` is greater; `Dequeue(1<<62)` panics in `make` at line 199,
where the claim has it return the one element. -/
theorem dequeue_more_than_length_beyond_make_limit :
    Reachable onePushed ∧ Length onePushed < 4611686018427387904 ∧
      contents onePushed = [1] ∧
      DequeueIn maxCapInt64 onePushed 4611686018427387904 = none :=
  ⟨reachable_onePushed, by decide, rfl, rfl⟩

/-- C9, amended: in every reachable state, for every `count` greater than
`Length()` that `make` accepts as a capacity (`count ≤ maxCap`), and for every
`count` greater than `Length()` when the head is nil, `Dequeue(count)` returns
all live elements in order, as many as `Length()` says, and leaves an empty
queue: the length is 0, `head` is nil, `NoOfNodes()` is 0 and `Pop` returns
found=false. -/
theorem dequeue_more_than_length (maxCap : Nat) (q : Queue T) (h : Reachable q) (count : Int)
    (hc : Length q < count) (hcap : q.head = none ∨ count ≤ (maxCap : Int)) :
    (DequeueIn maxCap q count).map
        (fun r => (r.1, Length r.2, r.2.head, NoOfNodes r.2, (Pop r.2).map Prod.fst)) =
      some (contents q, 0, none, some 0, some none) ∧
    ((contents q).length : Int) = Length q := by
  obtain ⟨segs, habs⟩ := reachable_abs h
  have hlen : Length q = ((live q.hp segs).length : Int) := habs.2
  have hk : ((count.toNat : Nat) : Int) = count := Int.toNat_of_nonneg (by omega)
  obtain ⟨q1, segs1, e, habs1, hlive, hall, _⟩ := dequeue_abs habs count.toNat
  have hlt : (live q.hp segs).length < count.toNat := by omega
  have hsegs : segs1 = [] := hall hlt
  subst hsegs
  have hhead : q1.head = none := linked_head_nil habs1.1.1
  have hlen1 : Length q1 = 0 := habs1.2
  have hnodes : NoOfNodes q1 = some 0 := by
    simp [NoOfNodes, hhead, countNodes]
  rw [hk] at e
  refine ⟨?_, ?_⟩
  · rw [dequeueIn_eq maxCap q count hcap, e, Option.map_some', contents_of_abs habs, hlen1,
      hhead, hnodes, pop_nil habs1.1.1, List.take_of_length_le (Nat.le_of_lt hlt)]
    rfl
  · rw [contents_of_abs habs, hlen]

/-- Witness for C9, amended: twenty live elements in two nodes, `Dequeue(25)`. -/
theorem dequeue_more_than_length_witness :
    Reachable twentyQueued ∧ Length twentyQueued < 25 ∧
      (twentyQueued.head = none ∨ (25 : Int) ≤ (maxCapInt64 : Int)) ∧
      ((DequeueIn maxCapInt64 twentyQueued 25).map
          (fun r => (r.1, Length r.2, r.2.head, NoOfNodes r.2, (Pop r.2).map Prod.fst)) =
        some (contents twentyQueued, 0, none, some 0, some none) ∧
      ((contents twentyQueued).length : Int) = Length twentyQueued) :=
  ⟨reachable_twentyQueued, by decide, by decide,
    dequeue_more_than_length maxCapInt64 twentyQueued reachable_twentyQueued 25 (by decide)
      (by decide)⟩

/-- C10: the reachable state `staleHeadQueue` has length 1 and live contents
`[7]`, and `Front` indexes the empty head slice out of range and panics
instead of returning `(7, true)`. -/
theorem front_panics_behind_empty_head :
    Reachable staleHeadQueue ∧ Length staleHeadQueue = 1 ∧
      contents staleHeadQueue = [7] ∧ Front staleHeadQueue = none :=
  ⟨reachable_staleHeadQueue, rfl, rfl, rfl⟩

/-- C15: after `Push(1)`, `Pop()` on a new queue the head is nil and `len`
is 0 while the tail still points to the drained node, so the three conditions
are not equivalent; `Init` on that state sets the tail to nil. -/
theorem tail_not_nil_after_drain :
    runOps NewQueue [Op.push 1, Op.pop] = some drainedQueue ∧ Reachable drainedQueue ∧
      drainedQueue.head = none ∧ drainedQueue.len = 0 ∧ drainedQueue.tail = some 0 ∧
      (Init drainedQueue).tail = none ∧
      ¬ ((drainedQueue.head = none ↔ drainedQueue.tail = none) ∧
         (drainedQueue.tail = none ↔ drainedQueue.len = 0)) := by
  refine ⟨rfl, reachable_drainedQueue, rfl, rfl, rfl, rfl, ?_⟩
  intro h
  have := h.1.1 rfl
  cases this

/-- C16: sixteen calls of `Push` followed by `Enqueue` of a one-element slice
all return and leave a single node that holds seventeen elements, one more
than `maxFirstSliceSize`: `Enqueue` appended to the full first node instead
of starting a new one. -/
theorem enqueue_overfills_first_node :
    runOps NewQueue overfillOps = some overfullQueue ∧
      NoOfNodes overfullQueue = some 1 ∧
      (chain overfullQueue).map (fun s => s.2.length) = [17] ∧
      maxFirstSliceSize = 16 := by
  refine ⟨rfl, rfl, rfl, rfl⟩

/-- C17: in every reachable state the length counter is the sum of the slice
lengths over the chain minus `hp`, it is 0 when the head is nil, and `hp` is
at most the length of the head slice. -/
theorem len_is_chain_sum (q : Queue T) (h : Reachable q) :
    Length q = ((((chain q).map (fun s => s.2.length)).sum : Nat) : Int) - (q.hp : Int) ∧
      (q.head = none → Length q = 0) ∧
      (∀ nd, load q.heap q.head = some nd → q.hp ≤ nd.v.length) := by
  obtain ⟨segs, habs⟩ := reachable_abs h
  have hchain := chain_eq_of_linked habs.1.1
  have hlen : Length q = ((live q.hp segs).length : Int) := habs.2
  refine ⟨?_, ?_, ?_⟩
  · rw [hchain, hlen]
    cases segs with
    | nil =>
      have hhp : q.hp = 0 := habs.1.2
      simp [live, hhp]
    | cons x rest =>
      obtain ⟨a, w⟩ := x
      exact live_length q.hp a w rest (segsOK_hp_le habs.1.2)
  · intro hh
    have hnil := linked_nil_of_head_none habs.1.1 hh
    subst hnil
    exact hlen
  · intro nd hnd
    cases segs with
    | nil =>
      rw [linked_head_nil habs.1.1] at hnd
      cases hnd
    | cons x rest =>
      obtain ⟨a, w⟩ := x
      obtain ⟨hhead, nd1, hnd1, hv, _⟩ := habs.1.1.rep
      rw [hhead] at hnd
      simp only [load] at hnd
      rw [hnd1] at hnd
      cases hnd
      rw [hv]
      exact segsOK_hp_le habs.1.2

/-- Witness for C17: twenty elements in two nodes. -/
theorem len_is_chain_sum_witness :
    Reachable twentyQueued ∧
      (Length twentyQueued =
          ((((chain twentyQueued).map (fun s => s.2.length)).sum : Nat) : Int) -
            (twentyQueued.hp : Int) ∧
        (twentyQueued.head = none → Length twentyQueued = 0) ∧
        (∀ nd, load twentyQueued.heap twentyQueued.head = some nd →
          twentyQueued.hp ≤ nd.v.length)) :=
  ⟨reachable_twentyQueued, len_is_chain_sum twentyQueued reachable_twentyQueued⟩

/-- C18: in every reachable state with a non-nil head, the tail pointer is the
address of the last node of the chain that starts at the head, the link of
that node is nil, and the tail is the head when the chain has one node; an
append through the tail pointer therefore extends the last slice of the chain. -/
theorem tail_is_last_of_chain (q : Queue T) (h : Reachable q) (hh : q.head ≠ none)
    (xs : List T) :
    q.tail ≠ none ∧ ((chain q).getLast?).map Prod.fst = q.tail ∧
      (load q.heap q.tail).map Node.n = some none ∧
      ((chain q).length = 1 → q.tail = q.head) ∧
      (appendTailV q xs).map (fun q1 => (chain q1).map Prod.snd) =
        some (appendLast ((chain q).map Prod.snd) xs) := by
  obtain ⟨segs, habs⟩ := reachable_abs h
  have hchain := chain_eq_of_linked habs.1.1
  rcases snoc_cases segs with rfl | ⟨init, t, tv, rfl⟩
  · exact absurd (linked_head_nil habs.1.1) hh
  · have htail := linked_snoc_tail habs.1.1
    have hlast := rep_snoc_last habs.1.1.rep
    refine ⟨by rw [htail]; simp, ?_, ?_, ?_, ?_⟩
    · rw [hchain, htail, List.getLast?_concat]; rfl
    · rw [htail]; simp only [load, hlast]; rfl
    · intro hone
      rw [hchain] at hone
      have hinit : init = [] := by
        cases init with
        | nil => rfl
        | cons x r => simp at hone
      subst hinit
      rw [htail]
      exact habs.1.1.rep.1.symm
    · obtain ⟨e, l2⟩ := linked_appendTailV habs.1.1 xs
      rw [e, Option.map_some', chain_eq_of_linked l2, hchain, map_snd_snoc, map_snd_snoc,
        appendLast_concat]

/-- Witness for C18: twenty elements in two nodes, the tail is the second. -/
theorem tail_is_last_of_chain_witness :
    Reachable twentyQueued ∧ twentyQueued.head ≠ none ∧
      (twentyQueued.tail ≠ none ∧
        ((chain twentyQueued).getLast?).map Prod.fst = twentyQueued.tail ∧
        (load twentyQueued.heap twentyQueued.tail).map Node.n = some none ∧
        ((chain twentyQueued).length = 1 → twentyQueued.tail = twentyQueued.head) ∧
        (appendTailV twentyQueued [20, 21]).map (fun q1 => (chain q1).map Prod.snd) =
          some (appendLast ((chain twentyQueued).map Prod.snd) [20, 21])) :=
  ⟨reachable_twentyQueued, by decide,
    tail_is_last_of_chain twentyQueued reachable_twentyQueued (by decide) [20, 21]⟩

/-- C19: after `Push(1)` on a new queue the tail node holds one element while
`tp` is still 0: `Push` does not move the tail offset. -/
theorem tp_not_moved_by_push :
    runOps NewQueue [Op.push 1] = some onePushed ∧
      onePushed.head = some 0 ∧ onePushed.tp = 0 ∧
      (load onePushed.heap onePushed.tail).map (fun nd => nd.v.length) = some 1 := by
  refine ⟨rfl, rfl, rfl, rfl⟩

/-- C11: `Init` on any state, in particular on every reachable one, gives
length 0, no nodes, nil head and tail, `hp` and `tp` 0; and every sequence of
`Push`, `Enqueue`, `Pop`, `Dequeue`, `Front`, `Length` and `NoOfNodes` calls then
returns the same results, panics included, as on a new queue. -/
theorem init_like_new (q : Queue T) (cs : List (Call T)) :
    Length (Init q) = 0 ∧ NoOfNodes (Init q) = some 0 ∧
      (Init q).head = none ∧ (Init q).tail = none ∧ (Init q).hp = 0 ∧ (Init q).tp = 0 ∧
      results (Init q) cs = results NewQueue cs := by
  refine ⟨rfl, ?_, rfl, rfl, rfl, rfl, ?_⟩
  · simp [NoOfNodes, Init, countNodes]
  · rw [results_eq_view cs (Init q) _ (refines_init q)]
    exact (results_eq_view cs NewQueue _ (refines_init _)).symm

/-- C13: for a list `vs` of length n > 16, `Enqueue(vs)` on a new queue gives
length n and `1 + ceil((n - 16) / 128)` nodes, the first holding `vs[0:16]` and
each later one the next 128 elements (the last one what is left);
`Dequeue(n)` then returns `vs`; for n = 261 there are 3 nodes. -/
theorem enqueue_layout (vs : List T) (hn : 16 < vs.length) :
    (Enqueue NewQueue vs).map (fun q => (Length q, NoOfNodes q, (chain q).map Prod.snd)) =
        some ((vs.length : Int), some (1 + (vs.length - 16 + 127) / 128),
          vs.take 16 :: chunks 128 (vs.drop 16)) ∧
      ((Enqueue NewQueue vs).bind (fun q => Dequeue q (vs.length : Int))).map Prod.fst =
        some vs ∧
      (vs.length = 261 → (Enqueue NewQueue vs).map NoOfNodes = some (some 3)) := by
  obtain ⟨q1, e, hchain, hlen, hnodes⟩ := enqueue_new_view vs hn
  refine ⟨?_, ?_, ?_⟩
  · rw [e, Option.map_some', hchain, hlen, hnodes]
  · obtain ⟨q2, segs2, e2, h2, hl2, _⟩ := enqueue_abs abs_newQueue vs
    obtain ⟨q3, segs3, e3, _⟩ := dequeue_abs h2 vs.length
    rw [e2, Option.some_bind, e3, hl2]
    simp [live]
  · intro h261
    rw [e, Option.map_some', hnodes, h261]

/-- Witness for C13: the 261 values 0..260. -/
theorem enqueue_layout_witness :
    16 < (List.range 261).length ∧
      ((Enqueue NewQueue (List.range 261)).map
          (fun q => (Length q, NoOfNodes q, (chain q).map Prod.snd)) =
        some (((List.range 261).length : Int),
          some (1 + ((List.range 261).length - 16 + 127) / 128),
          (List.range 261).take 16 :: chunks 128 ((List.range 261).drop 16)) ∧
      ((Enqueue NewQueue (List.range 261)).bind
          (fun q => Dequeue q ((List.range 261).length : Int))).map Prod.fst =
        some (List.range 261) ∧
      ((List.range 261).length = 261 →
        (Enqueue NewQueue (List.range 261)).map NoOfNodes = some (some 3))) :=
  ⟨by simp, enqueue_layout (List.range 261) (by simp)⟩

/-- C12: N ≥ 1 calls of `Push` on a new queue return and leave a chain whose
node sizes are `pushNodeSizes N`: the first node holds `min N 16` elements, the
later nodes 128 each except the last; for N = 17 there are exactly 2 nodes
holding 16 and 1 elements.  N calls of `Pop` then return the pushed values in
order with found=true and leave a nil head and no nodes. -/
theorem push_layout (vs : List T) (hN : 1 ≤ vs.length) :
    (pushAll NewQueue vs).map (fun q => (NoOfNodes q, (chain q).map (fun s => s.2.length))) =
        some (some (pushNodeSizes vs.length).length, pushNodeSizes vs.length) ∧
      (pushNodeSizes vs.length).head? = some (min vs.length 16) ∧
      (vs.length = 17 →
        (pushAll NewQueue vs).map
            (fun q => (NoOfNodes q, (chain q).map (fun s => s.2.length))) =
          some (some 2, [16, 1])) ∧
      ((pushAll NewQueue vs).bind (popN vs.length)).map
          (fun r => (r.1, r.2.head, NoOfNodes r.2)) =
        some (vs.map some, none, some 0) := by
  cases vs with
  | nil => simp at hN
  | cons x xs =>
    obtain ⟨q1, e1, hsizes, hnodes⟩ := push_new_layout x xs
    have hfirst : (pushAll NewQueue (x :: xs)).map
        (fun q => (NoOfNodes q, (chain q).map (fun s => s.2.length))) =
        some (some (pushNodeSizes (x :: xs).length).length,
          pushNodeSizes (x :: xs).length) := by
      rw [e1, Option.map_some', hsizes, hnodes]
    refine ⟨hfirst, ?_, ?_, ?_⟩
    · exact pushNodeSizes_head _
    · intro h17
      rw [hfirst, h17]
      rfl
    · obtain ⟨q1b, segs1, e1b, h1, hl1, hh1⟩ :=
        pushAll_abs (x :: xs) NewQueue [] abs_newQueue trivial
      obtain ⟨q2, segs2, e2, h2, hh2, hl2⟩ := popN_abs (x :: xs).length q1b segs1 h1 hh1
      have hlive : live q1b.hp segs1 = x :: xs := by rw [hl1]; rfl
      rw [hlive] at e2 hl2
      have hnil : segs2 = [] := segs_nil_of_live_nil hh2 (by rw [hl2]; simp)
      subst hnil
      rw [e1b, Option.some_bind, e2, Option.map_some', linked_head_nil h2.1.1,
        noOfNodes_of_linked h2.1.1]
      simp

/-- Witness for C12: the seventeen values 0..16. -/
theorem push_layout_witness :
    1 ≤ (List.range 17).length ∧
      ((pushAll NewQueue (List.range 17)).map
          (fun q => (NoOfNodes q, (chain q).map (fun s => s.2.length))) =
        some (some (pushNodeSizes (List.range 17).length).length,
          pushNodeSizes (List.range 17).length) ∧
      (pushNodeSizes (List.range 17).length).head? = some (min (List.range 17).length 16) ∧
      ((List.range 17).length = 17 →
        (pushAll NewQueue (List.range 17)).map
            (fun q => (NoOfNodes q, (chain q).map (fun s => s.2.length))) =
          some (some 2, [16, 1])) ∧
      ((pushAll NewQueue (List.range 17)).bind (popN (List.range 17).length)).map
          (fun r => (r.1, r.2.head, NoOfNodes r.2)) =
        some ((List.range 17).map some, none, some 0)) :=
  ⟨by simp, push_layout (List.range 17) (by simp)⟩

/-- C14: the reachable state `staleHeadQueue` has length 1 and two nodes, the
head node holding no element.  `Pop` panics there instead of returning the
live element and unlinking a node, and `Dequeue(0)`, whose count equals the
live count 0 of the head node, keeps both nodes. -/
theorem node_count_behind_empty_head :
    Reachable staleHeadQueue ∧ Length staleHeadQueue = 1 ∧
      NoOfNodes staleHeadQueue = some 2 ∧ Pop staleHeadQueue = none ∧
      (Dequeue staleHeadQueue 0).map (fun r => (r.1, NoOfNodes r.2)) = some ([], some 2) :=
  ⟨reachable_staleHeadQueue, rfl, rfl, rfl, rfl⟩

/-- C20: in the reachable state `staleHeadQueue`, of length 1, `Dequeue(1)`
returns `[7]` and leaves an empty queue while `Pop` panics: the two calls do
not agree. -/
theorem pop_dequeue_differ_behind_empty_head :
    Reachable staleHeadQueue ∧ Length staleHeadQueue = 1 ∧
      Pop staleHeadQueue = none ∧
      (Dequeue staleHeadQueue 1).map (fun r => (r.1, Length r.2, r.2.head)) =
        some ([7], 0, none) :=
  ⟨reachable_staleHeadQueue, rfl, rfl, rfl⟩

end queueimpl8

